import Mathlib

/-!
Verification of the `tap` process supervisor's core data structures against
their natural-language specification.

The development shallowly embeds the TypeScript sources:
* `src/runner/ring-buffer.ts` — the in-memory log ring buffer (`RingBuffer`),
* `src/utils/validation.ts` — service-name and regex-pattern validation,
* `src/utils/paths.ts` and `src/utils/discovery.ts` — socket-path derivation
  and service discovery.

Modelling conventions:
* JavaScript numbers are modelled as `Nat` (all quantities involved are
  non-negative integers within safe range).
* `Buffer.byteLength(text, "utf-8")` is `String.utf8ByteSize`.
* Wall-clock time (`Date.now()`) is passed explicitly as a `now : Nat`
  argument.
* Throwing functions are modelled with `Except String`.
* The host JavaScript `RegExp` engine (compilation success and `test`) is
  external to the repository and is modelled as an abstract oracle
  (`JsRegexOracle`); everything the repository itself computes (length
  checks, the dangerous-pattern heuristics, the decision to throw) is
  embedded concretely.
* Filesystem paths are modelled as already-canonical strings; node's
  `join`/`resolve` on such inputs is string concatenation with `/`.
-/

namespace Tap

/-- `stream` label of a log event (`'combined' | 'stdout' | 'stderr'`). -/
inductive StreamTag where
  | combined
  | stdout
  | stderr
deriving DecidableEq, Repr, BEq

/-- `LogEvent` from `src/protocol/types.ts`: one captured log line. -/
structure LogEvent where
  seq : Nat
  ts : Nat
  stream : StreamTag
  text : String
deriving DecidableEq, Repr

/-- UTF-8 byte length of an event's text (`Buffer.byteLength(text, "utf-8")`). -/
def LogEvent.bytes (e : LogEvent) : Nat := e.text.utf8ByteSize

/-- Sum of UTF-8 byte lengths of the texts of a list of events. -/
def sumBytes (l : List LogEvent) : Nat := (l.map LogEvent.bytes).sum

/-- State of `RingBuffer` from `src/runner/ring-buffer.ts`:
events oldest-first plus the bookkeeping fields and the configured caps. -/
structure RingBuffer where
  events : List LogEvent
  nextSeq : Nat
  totalBytes : Nat
  lowestSeq : Nat
  maxLines : Nat
  maxBytes : Nat
deriving Repr

/-- The `RingBuffer` constructor: empty buffer, `nextSeq = 1`,
`totalBytes = 0`, `lowestSeq = 1`, with the given caps
(source defaults: `maxLines = 5000`, `maxBytes = 10_000_000`). -/
def RingBuffer.new (maxLines : Nat := 5000) (maxBytes : Nat := 10000000) :
    RingBuffer :=
  { events := [], nextSeq := 1, totalBytes := 0, lowestSeq := 1,
    maxLines, maxBytes }

/-- The eviction loop in `RingBuffer.append`:
`while ((events.length > maxLines || totalBytes > maxBytes) && events.length > 0)`
shift the oldest event, subtract its bytes, and set
`lowestSeq = events[0]?.seq ?? nextSeq`.  `ns` is the value of `this.nextSeq`
during the loop (already incremented by the append). -/
def evictList (maxLines maxBytes ns : Nat) :
    List LogEvent → Nat → Nat → List LogEvent × Nat × Nat
  | [], totalBytes, lowestSeq => ([], totalBytes, lowestSeq)
  | e :: rest, totalBytes, lowestSeq =>
    if rest.length + 1 > maxLines || totalBytes > maxBytes then
      evictList maxLines maxBytes ns rest (totalBytes - e.bytes)
        (((rest.head?).map LogEvent.seq).getD ns)
    else (e :: rest, totalBytes, lowestSeq)

/-- `RingBuffer.append(text, stream)`: assign `seq = nextSeq++`, stamp `ts`,
push the event, add its bytes, then run the eviction loop.  Returns the
created event together with the updated buffer. -/
def RingBuffer.append (b : RingBuffer) (text : String)
    (stream : StreamTag := .combined) (now : Nat := 0) :
    LogEvent × RingBuffer :=
  let event : LogEvent := { seq := b.nextSeq, ts := now, stream, text }
  let pushed := b.events ++ [event]
  let tb := b.totalBytes + text.utf8ByteSize
  let out := evictList b.maxLines b.maxBytes (b.nextSeq + 1) pushed tb b.lowestSeq
  (event,
    { b with events := out.1, nextSeq := b.nextSeq + 1,
             totalBytes := out.2.1, lowestSeq := out.2.2 })

/-- `RingBuffer.insertMarker(text)`: appends with stream `combined`. -/
def RingBuffer.insertMarker (b : RingBuffer) (text : String) (now : Nat := 0) :
    LogEvent × RingBuffer :=
  b.append text .combined now

/-- `RingBuffer.clear()`: drop all events, zero the byte count, and set
`lowestSeq := nextSeq` (which is not reset). -/
def RingBuffer.clear (b : RingBuffer) : RingBuffer :=
  { b with events := [], totalBytes := 0, lowestSeq := b.nextSeq }

/-- Fold a list of `(text, stream, now)` append calls over a buffer,
keeping only the final buffer state. -/
def appendAll (b : RingBuffer) (xs : List (String × StreamTag × Nat)) :
    RingBuffer :=
  xs.foldl (fun b x => (b.append x.1 x.2.1 x.2.2).2) b

/-! ### Regex pattern validation (`src/utils/validation.ts`, lines 53-114) -/

/-- A character matched by the regex class `[*+]`. -/
def isQuantChar (c : Char) : Bool := c == '*' || c == '+'

/-- A character matched by the JavaScript regex class `\s`
(ASCII whitespace forms; sufficient for the patterns at hand). -/
def isJsWs (c : Char) : Bool :=
  c == ' ' || c == '\t' || c == '\n' || c == '\r' || c == '\x0b' || c == '\x0c'

/-- Match of `/[*+]\s*\.[*+]/` anchored at the head of the character list:
a quantifier, optional whitespace, a literal dot, a quantifier. -/
def danger1At : List Char → Bool
  | c :: rest =>
    isQuantChar c &&
      (match rest.dropWhile isJsWs with
       | '.' :: d :: _ => isQuantChar d
       | _ => false)
  | [] => false

/-- Match of `/[*+]\s*\[[^\]]*\][*+]/` anchored at the head: a quantifier,
optional whitespace, a bracket class, a quantifier. -/
def danger2At : List Char → Bool
  | c :: rest =>
    isQuantChar c &&
      (match rest.dropWhile isJsWs with
       | '[' :: rest2 =>
         (match rest2.dropWhile (fun x => x != ']') with
          | ']' :: d :: _ => isQuantChar d
          | _ => false)
       | _ => false)
  | [] => false

/-- Match of `/\([^)]*\|[^)]*\)[*+]/` anchored at the head: a group with a
top-level alternation, immediately quantified. -/
def danger3At : List Char → Bool
  | '(' :: rest =>
    (rest.takeWhile (fun x => x != ')')).contains '|' &&
      (match rest.dropWhile (fun x => x != ')') with
       | ')' :: q :: _ => isQuantChar q
       | _ => false)
  | _ => false

/-- Match of `/\{[^}]+\}\s*\{[^}]+\}/` anchored at the head: two consecutive
brace quantifiers separated by optional whitespace. -/
def danger4At : List Char → Bool
  | '{' :: rest =>
    !(rest.takeWhile (fun x => x != '}')).isEmpty &&
      (match rest.dropWhile (fun x => x != '}') with
       | '}' :: rest2 =>
         (match rest2.dropWhile isJsWs with
          | '{' :: rest3 =>
            !(rest3.takeWhile (fun x => x != '}')).isEmpty &&
              (match rest3.dropWhile (fun x => x != '}') with
               | '}' :: _ => true
               | _ => false)
          | _ => false)
       | _ => false)
  | _ => false

/-- Match of `/[*+?]|\{\d+,?\d*\}/` anchored at the head: a bare quantifier
character or a numeric brace quantifier. -/
def quantAt : List Char → Bool
  | c :: rest =>
    if c == '*' || c == '+' || c == '?' then true
    else if c == '{' then
      let ds := rest.takeWhile Char.isDigit
      if ds.isEmpty then false
      else
        match rest.dropWhile Char.isDigit with
        | '}' :: _ => true
        | ',' :: rest2 =>
          (match rest2.dropWhile Char.isDigit with
           | '}' :: _ => true
           | _ => false)
        | _ => false
    else false
  | [] => false

/-- `RegExp.prototype.test` for an unanchored pattern: the anchored matcher
`p` succeeds at some position of the list. -/
def scanAny (p : List Char → Bool) : List Char → Bool
  | [] => false
  | c :: rest => p (c :: rest) || scanAny p rest

/-- `isDangerousPattern(pattern)`: the four heuristic signature tests plus the
group-depth check (`> 3` open groups combined with any quantifier). -/
def isDangerousPattern (pat : String) : Bool :=
  let l := pat.toList
  scanAny danger1At l || scanAny danger2At l ||
  scanAny danger3At l || scanAny danger4At l ||
  (decide (l.count '(' > 3) && scanAny quantAt l)

/-- `MAX_REGEX_LENGTH` from the source. -/
def MAX_REGEX_LENGTH : Nat := 200

/-- `validateRegexPattern(pattern)`: reject empty patterns, patterns longer
than 200 characters, patterns that fail to compile (host compilation success
is the abstract `compiles` argument), and dangerous patterns. -/
def validateRegexPattern (compiles : String → Bool) (pat : String) :
    Except String Unit :=
  if pat.isEmpty then .error "Regex pattern is required"
  else if pat.length > MAX_REGEX_LENGTH then
    .error "Regex pattern must be 200 characters or less"
  else if !compiles pat then .error "Invalid regex pattern syntax"
  else if isDangerousPattern pat then
    .error "Regex pattern contains potentially dangerous backtracking constructs"
  else .ok ()

/-- The host JavaScript `RegExp` engine, abstracted: whether a pattern
compiles, and what `new RegExp(pattern, flags).test(text)` returns. -/
structure JsRegexOracle where
  compiles : String → Bool
  test : String → String → String → Bool

/-- `createSafeRegex(pattern, flags)`: validate, then hand back the host
regex's `test` as a matcher. -/
def createSafeRegex (oracle : JsRegexOracle) (pat flags : String) :
    Except String (String → Bool) :=
  match validateRegexPattern oracle.compiles pat with
  | .error e => .error e
  | .ok _ => .ok (fun text => oracle.test pat flags text)

/-! ### Query (`src/runner/ring-buffer.ts`, lines 4-27 and 82-156) -/

/-- `QueryOptions`: window selectors, filters, and limits.  Absent optional
fields are `none`; the boolean flags default to `false` as absent flags are
falsy in the source. -/
structure QueryOptions where
  sinceCursor : Option Nat := none
  sinceMs : Option Nat := none
  last : Option Nat := none
  grep : Option String := none
  regex : Bool := false
  caseSensitive : Bool := false
  invert : Bool := false
  stream : Option StreamTag := none
  maxLines : Option Nat := none
  maxBytes : Option Nat := none

/-- `QueryResult`: the events kept, the resume cursor, and the two flags. -/
structure QueryResult where
  events : List LogEvent
  cursorNext : Nat
  truncated : Bool
  dropped : Bool
deriving Repr, DecidableEq

/-- `String.prototype.includes`: substring containment, over the character
lists of the two strings. -/
def containsSubstr (s pat : String) : Bool :=
  decide (pat.toList <:+: s.toList)

/-- `String.prototype.toLowerCase`, modelled character-wise. -/
def lowerStr (s : String) : String := s.map Char.toLower

/-- Window selection (`query`, lines 86-98): `sinceCursor` keeps
`seq ≥ C`, `sinceMs` keeps `ts ≥ now - D`, `last` keeps the trailing `N`
events (`Array.prototype.slice(-N)`, which for `N = 0` keeps everything),
and with no selector all events are kept. -/
def windowEvents (now : Nat) (b : RingBuffer) (opts : QueryOptions) :
    List LogEvent :=
  match opts.sinceCursor with
  | some c => b.events.filter (fun e => decide (c ≤ e.seq))
  | none =>
    match opts.sinceMs with
    | some d => b.events.filter (fun e => decide (now - d ≤ e.ts))
    | none =>
      match opts.last with
      | some n =>
        if n = 0 then b.events else b.events.drop (b.events.length - n)
      | none => b.events

/-- The `dropped` flag (`query`, lines 87-91): set exactly when a
`sinceCursor` window is requested below `lowestSeq`. -/
def droppedFlag (b : RingBuffer) (opts : QueryOptions) : Bool :=
  match opts.sinceCursor with
  | some c => decide (c < b.lowestSeq)
  | none => false

/-- Stream filter (`query`, lines 100-103): filter only when a stream other
than `combined` is requested. -/
def streamFiltered (opts : QueryOptions) (l : List LogEvent) :
    List LogEvent :=
  match opts.stream with
  | some s => if s == .combined then l else l.filter (fun e => e.stream == s)
  | none => l

/-- Whether the grep filter is active: `if (opts.grep)` is truthy, i.e. the
pattern is present and non-empty. -/
def grepActive (opts : QueryOptions) : Bool :=
  match opts.grep with
  | some p => !p.isEmpty
  | none => false

/-- The substring matcher of the non-regex grep branch (`query`,
lines 113-118). -/
def substringMatcher (caseSensitive : Bool) (pat : String) :
    String → Bool :=
  if caseSensitive then fun text => containsSubstr text pat
  else fun text => containsSubstr (lowerStr text) (lowerStr pat)

/-- Build the grep matcher (`query`, lines 106-118): `none` when the filter
is inactive; the regex branch goes through `createSafeRegex` and can fail. -/
def grepMatcherE (oracle : JsRegexOracle) (opts : QueryOptions) :
    Except String (Option (String → Bool)) :=
  match opts.grep with
  | none => .ok none
  | some p =>
    if p.isEmpty then .ok none
    else if opts.regex then
      match createSafeRegex oracle p (if opts.caseSensitive then "" else "i") with
      | .error e => .error e
      | .ok m => .ok (some m)
    else .ok (some (substringMatcher opts.caseSensitive p))

/-- Apply the grep matcher with the `invert` flag (`query`, lines 120-124). -/
def applyGrep (invert : Bool) (m : Option (String → Bool))
    (l : List LogEvent) : List LogEvent :=
  match m with
  | none => l
  | some f => l.filter (fun e => if invert then !f e.text else f e.text)

/-- The full candidate pipeline of `query` before the limit phase: window
selection, stream filter, then grep filter. -/
def filteredCandidates (oracle : JsRegexOracle) (now : Nat)
    (b : RingBuffer) (opts : QueryOptions) :
    Except String (List LogEvent) :=
  match grepMatcherE oracle opts with
  | .error e => .error e
  | .ok m => .ok (applyGrep opts.invert m (streamFiltered opts (windowEvents now b opts)))

/-- The limit phase of `query` (lines 126-146): walk the candidates in order
carrying the running count and byte total; stop (setting `truncated`) when
the count reaches `maxLines`, or when adding the next event would exceed
`maxBytes` and at least one event is already kept. -/
def limitLoop (maxLines maxBytes : Nat) :
    List LogEvent → Nat → Nat → List LogEvent × Bool
  | [], _, _ => ([], false)
  | e :: rest, count, bytes =>
    if maxLines ≤ count then ([], true)
    else if maxBytes < bytes + e.bytes ∧ 0 < count then ([], true)
    else
      (e :: (limitLoop maxLines maxBytes rest (count + 1) (bytes + e.bytes)).1,
       (limitLoop maxLines maxBytes rest (count + 1) (bytes + e.bytes)).2)

/-- `RingBuffer.query(opts)`: candidates, limits, and the result record with
`cursorNext = last kept seq + 1` (or `nextSeq` when nothing is kept).
Limit defaults: `maxLines = 80`, `maxBytes = 32768`. -/
def RingBuffer.query (oracle : JsRegexOracle) (now : Nat)
    (b : RingBuffer) (opts : QueryOptions) : Except String QueryResult :=
  match filteredCandidates oracle now b opts with
  | .error e => .error e
  | .ok cands =>
    let out := limitLoop (opts.maxLines.getD 80) (opts.maxBytes.getD 32768) cands 0 0
    .ok { events := out.1
          cursorNext :=
            match out.1.getLast? with
            | some e => e.seq + 1
            | none => b.nextSeq
          truncated := out.2
          dropped := droppedFlag b opts }

/-! ### Service-name validation (`src/utils/validation.ts`, lines 1-51) -/

/-- A character matched by the class `[a-zA-Z0-9_-]`. -/
def isValidSegChar (c : Char) : Bool :=
  c.isAlpha || c.isDigit || c == '_' || c == '-'

/-- Split a character list at its last colon (`String.prototype.lastIndexOf`
plus the two `slice` calls): `some (before, after)` when a colon exists,
`none` otherwise. -/
def splitLastColon : List Char → Option (List Char × List Char)
  | [] => none
  | c :: rest =>
    match splitLastColon rest with
    | some (p, b) => some (c :: p, b)
    | none => if c = ':' then some ([], rest) else none

/-- `String.prototype.split(sep)` on a character list (never yields an empty
result list; splitting the empty list yields `[[]]`). -/
def splitOnChar (sep : Char) : List Char → List (List Char)
  | [] => [[]]
  | c :: rest =>
    if c = sep then [] :: splitOnChar sep rest
    else
      match splitOnChar sep rest with
      | s :: ss => (c :: s) :: ss
      | [] => [[c]]

/-- `validateNameSegment(segment, context)`: non-empty, at most 64
characters, only `[a-zA-Z0-9_-]`. -/
def validateNameSegment (seg : List Char) (ctx : String) :
    Except String Unit :=
  if seg.isEmpty then .error (ctx ++ " cannot be empty")
  else if seg.length > 64 then .error (ctx ++ " must be 64 characters or less")
  else if !seg.all isValidSegChar then
    .error (ctx ++ " must contain only alphanumeric characters, hyphens, and underscores")
  else .ok ()

/-- Validate a list of path segments in order, stopping at the first error
(the `for` loop of `validateServiceName`). -/
def validateSegments : List (List Char) → Except String Unit
  | [] => .ok ()
  | s :: ss =>
    match validateNameSegment s "Path segment" with
    | .error e => .error e
    | .ok _ => validateSegments ss

/-- `validateServiceName(name)`: overall emptiness and length checks, then
segment validation — the whole name when it has no colon, else each
`/`-separated segment of the part before the last colon followed by the
base name after it. -/
def validateServiceName (name : String) : Except String Unit :=
  if name.isEmpty then .error "Service name is required"
  else if name.length > 128 then
    .error "Service name must be 128 characters or less"
  else
    match splitLastColon name.toList with
    | none => validateNameSegment name.toList "Service name"
    | some (p, base) =>
      match validateSegments (splitOnChar '/' p) with
      | .error e => .error e
      | .ok _ => validateNameSegment base "Service name"

/-! ### Paths and discovery (`src/utils/paths.ts`, `src/utils/discovery.ts`) -/

/-- `path.join` of a directory and an entry, for canonical inputs. -/
def joinPath (dir entry : String) : String := dir ++ "/" ++ entry

/-- `getSocketPath(tapDir, name)` from `src/utils/paths.ts`: validate the
service name first, and only then produce `<tapDir>/<name>.sock`. -/
def getSocketPath (tapDir name : String) : Except String String :=
  match validateServiceName name with
  | .error e => .error e
  | .ok _ => .ok (joinPath tapDir (name ++ ".sock"))

/-- `parseServiceName(name)` from `src/utils/discovery.ts`:
`(prefix part, base name)` split at the last colon; the prefix part is empty
for a simple name. -/
def parseServiceName (name : String) : String × String :=
  match splitLastColon name.toList with
  | none => ("", name)
  | some (p, b) => (String.mk p, String.mk b)

/-- `getTapDirForService(name, baseDir)`: `<baseDir>/<prefix>/.tap` when the
name has a (truthy) prefix, else `<baseDir>/.tap`. -/
def getTapDirForService (name baseDir : String) : String :=
  let pb := parseServiceName name
  if pb.1.isEmpty then joinPath baseDir ".tap"
  else joinPath (joinPath baseDir pb.1) ".tap"

/-- The socket path the runner binds for `tap run <name>`:
`src/cli/run.ts` parses the base name and derives the tap directory from the
prefix, and `src/runner/index.ts` binds `getSocketPath(tapDir, baseName)`. -/
def runnerSocketPath (name cwd : String) : Except String String :=
  getSocketPath (getTapDirForService name cwd) (parseServiceName name).2

/-- `DiscoveredTapDir`: a `.tap` directory found by the walk, with the
base-relative path of its parent as `pfx` (named `prefix` in the source;
renamed here). -/
structure DiscoveredTapDir where
  path : String
  pfx : String

/-- `DiscoveredService` (field `prefix` of the source renamed to `pfx`). -/
structure DiscoveredService where
  name : String
  socketPath : String
  tapDir : String
  pfx : String
  baseName : String

/-- The characters of the literal `".sock"`. -/
def sockSuffix : List Char := ['.', 's', 'o', 'c', 'k']

/-- `entry.endsWith(".sock")`. -/
def isSockEntry (e : String) : Bool := sockSuffix.isSuffixOf e.toList

/-- `entry.slice(0, -5)`: the entry minus its last five characters. -/
def sockBase (e : String) : String :=
  String.mk (e.toList.take (e.toList.length - 5))

/-- `discoverServices` (lines 81-110), with the filesystem walk's output
supplied as data: each discovered `.tap` directory together with its entry
listing.  Keeps entries ending in `.sock` and composes
`name = prefix ":" base` (or just `base` at the root). -/
def discoverServices (fs : List (DiscoveredTapDir × List String)) :
    List DiscoveredService :=
  (fs.map fun d =>
    (d.2.filter isSockEntry).map fun e =>
      { name := if d.1.pfx.isEmpty then sockBase e
                else d.1.pfx ++ ":" ++ sockBase e
        socketPath := joinPath d.1.path e
        tapDir := d.1.path
        pfx := d.1.pfx
        baseName := sockBase e }).flatten

/-- `resolveService(name, baseDir, explicitTapDir)` (lines 137-172), with the
walk's output supplied as data.  With an explicit tap directory the socket is
`<tapDir>/<base>.sock` directly; otherwise find the service whose composed
name matches exactly, then fall back to a unique base-name match for
un-prefixed names, then to the root default path. -/
def resolveService (name : String)
    (fs : List (DiscoveredTapDir × List String)) (baseDir : String)
    (explicitTapDir : Option String) : String × String :=
  let pb := parseServiceName name
  match explicitTapDir with
  | some td => (joinPath td (pb.2 ++ ".sock"), td)
  | none =>
    let services := discoverServices fs
    match services.find? (fun s => s.name == name) with
    | some m => (m.socketPath, m.tapDir)
    | none =>
      let fallback :=
        (joinPath (joinPath baseDir ".tap") (pb.2 ++ ".sock"),
         joinPath baseDir ".tap")
      if pb.1.isEmpty then
        match services.filter (fun s => s.baseName == name) with
        | [m] => (m.socketPath, m.tapDir)
        | _ => fallback
      else fallback

/-! ### Ring-buffer invariants -/

/-- The sequence number of the head of a list of events, or the default `d`
when the list is empty (`events[0]?.seq ?? d`). -/
def headSeqD (l : List LogEvent) (d : Nat) : Nat :=
  ((l.head?).map LogEvent.seq).getD d

/-- The state invariant of the ring buffer: the byte counter is exact, the
retained events are strictly increasing in `seq` and all below `nextSeq`,
`lowestSeq` tracks the head (or `nextSeq` when empty), and both caps hold
(bytes only when non-empty). -/
structure Inv (b : RingBuffer) : Prop where
  bytesEq : b.totalBytes = sumBytes b.events
  sorted : b.events.Pairwise (fun a c => a.seq < c.seq)
  seqLt : ∀ e ∈ b.events, e.seq < b.nextSeq
  lowEq : b.lowestSeq = headSeqD b.events b.nextSeq
  lines : b.events.length ≤ b.maxLines
  bytesCap : b.events ≠ [] → b.totalBytes ≤ b.maxBytes

/-- Buffer states reachable through the public mutators. -/
inductive Reachable : RingBuffer → Prop where
  | new (maxLines maxBytes : Nat) : Reachable (RingBuffer.new maxLines maxBytes)
  | append (b : RingBuffer) (text : String) (stream : StreamTag) (now : Nat) :
      Reachable b → Reachable (b.append text stream now).2
  | clear (b : RingBuffer) : Reachable b → Reachable b.clear

/-- Two query outcomes agreeing on everything except the `dropped` flag. -/
def sameUpToDropped :
    Except String QueryResult → Except String QueryResult → Prop
  | .ok r₁, .ok r₂ =>
    r₁.events = r₂.events ∧ r₁.cursorNext = r₂.cursorNext ∧
      r₁.truncated = r₂.truncated
  | .error e₁, .error e₂ => e₁ = e₂
  | _, _ => False

/-- A concrete host-regex oracle for witnesses: everything compiles and
every test matches. -/
def oracleTrue : JsRegexOracle :=
  { compiles := fun _ => true, test := fun _ _ _ => true }

/-- The buffer of spec scenario "Byte-cap eviction": `maxBytes = 20`, line
cap at its default, after appending the four five-byte lines. -/
def byteCapDemo : RingBuffer :=
  appendAll (RingBuffer.new 5000 20)
    [("12345", .combined, 0), ("67890", .combined, 0),
     ("abcde", .combined, 0), ("fghij", .combined, 0)]

/-- Claim-side description of a bad segment: empty, longer than 64
characters, or containing a character outside `[A-Za-z0-9_-]`. -/
def badSegSpec (s : List Char) : Bool :=
  s.isEmpty || decide (s.length > 64) || !s.all isValidSegChar

/-- Claim-side segment decomposition of a service name: the whole simple
name, or the `/`-separated segments of the part before the last colon
followed by the base name after it. -/
def claimSegments (l : List Char) : List (List Char) :=
  match splitLastColon l with
  | none => [l]
  | some (p, b) => splitOnChar '/' p ++ [b]

/-- Claim-side rejection predicate for `validateServiceName` (this follows
the words of the specification, to be compared with the embedded code). -/
def specRejectsName (name : String) : Bool :=
  name.isEmpty || decide (name.length > 128) ||
    (claimSegments name.toList).any badSegSpec

/-- The tap directory of a service with the given prefix path in a
workspace: `<workspace>/<prefix>/.tap`, or `<workspace>/.tap` at the root. -/
def tapDirFor (workspace pfx : String) : String :=
  if pfx.isEmpty then joinPath workspace ".tap"
  else joinPath (joinPath workspace pfx) ".tap"

/-- Well-formedness of a filesystem walk result relative to a workspace:
each discovered `.tap` directory's absolute path agrees with its recorded
prefix, and neither prefixes nor entry names contain a colon (the walker
derives prefixes from filesystem paths, and sockets are created from
validated base names). -/
def WellFormedFS (workspace : String)
    (fs : List (DiscoveredTapDir × List String)) : Prop :=
  ∀ d ∈ fs, d.1.path = tapDirFor workspace d.1.pfx ∧
    (∀ c ∈ d.1.pfx.toList, c ≠ ':') ∧
    ∀ e ∈ d.2, ∀ c ∈ e.toList, c ≠ ':'

theorem evictList_suffix (mL mB ns : Nat) :
    ∀ (es : List LogEvent) (tb ls : Nat),
      (evictList mL mB ns es tb ls).1 <:+ es := by
  intro es
  induction es with
  | nil => intro tb ls; simp [evictList]
  | cons e rest ih =>
    intro tb ls
    rw [evictList]
    split
    · exact ((ih _ _).trans (List.suffix_cons e rest))
    · exact List.suffix_refl _

theorem evictList_bytes (mL mB ns : Nat) :
    ∀ (es : List LogEvent) (tb ls : Nat), tb = sumBytes es →
      (evictList mL mB ns es tb ls).2.1 = sumBytes (evictList mL mB ns es tb ls).1 := by
  intro es
  induction es with
  | nil => intro tb ls h; simpa [evictList] using h
  | cons e rest ih =>
    intro tb ls h
    rw [evictList]
    split
    · refine ih _ _ ?_
      simp [sumBytes] at h ⊢
      omega
    · exact h

theorem evictList_length (mL mB ns : Nat) :
    ∀ (es : List LogEvent) (tb ls : Nat),
      (evictList mL mB ns es tb ls).1.length ≤ mL := by
  intro es
  induction es with
  | nil => intro tb ls; simp [evictList]
  | cons e rest ih =>
    intro tb ls
    rw [evictList]
    split
    · exact ih _ _
    · next hcond =>
      simp only [Bool.or_eq_true, decide_eq_true_eq, not_or] at hcond
      simp only [List.length_cons]
      omega

theorem evictList_bytesCap (mL mB ns : Nat) :
    ∀ (es : List LogEvent) (tb ls : Nat),
      (evictList mL mB ns es tb ls).1 ≠ [] →
      (evictList mL mB ns es tb ls).2.1 ≤ mB := by
  intro es
  induction es with
  | nil => intro tb ls h; simp [evictList] at h
  | cons e rest ih =>
    intro tb ls h
    rw [evictList] at h ⊢
    by_cases hc : (decide (rest.length + 1 > mL) || decide (tb > mB)) = true
    · rw [if_pos hc] at h ⊢
      exact ih _ _ h
    · rw [if_neg hc] at h ⊢
      simp only [Bool.or_eq_true, decide_eq_true_eq, not_or] at hc
      show tb ≤ mB
      omega

theorem evictList_lowest (mL mB ns : Nat) :
    ∀ (es : List LogEvent) (tb ls : Nat), ls = headSeqD es ns →
      (evictList mL mB ns es tb ls).2.2 =
        headSeqD (evictList mL mB ns es tb ls).1 ns := by
  intro es
  induction es with
  | nil => intro tb ls h; simpa [evictList] using h
  | cons e rest ih =>
    intro tb ls h
    rw [evictList]
    split
    · exact ih _ _ rfl
    · exact h

theorem append_eq (b : RingBuffer) (text : String) (stream : StreamTag)
    (now : Nat) :
    b.append text stream now =
      ((⟨b.nextSeq, now, stream, text⟩ : LogEvent),
        { b with
          events := (evictList b.maxLines b.maxBytes (b.nextSeq + 1)
            (b.events ++ [⟨b.nextSeq, now, stream, text⟩])
            (b.totalBytes + text.utf8ByteSize) b.lowestSeq).1
          nextSeq := b.nextSeq + 1
          totalBytes := (evictList b.maxLines b.maxBytes (b.nextSeq + 1)
            (b.events ++ [⟨b.nextSeq, now, stream, text⟩])
            (b.totalBytes + text.utf8ByteSize) b.lowestSeq).2.1
          lowestSeq := (evictList b.maxLines b.maxBytes (b.nextSeq + 1)
            (b.events ++ [⟨b.nextSeq, now, stream, text⟩])
            (b.totalBytes + text.utf8ByteSize) b.lowestSeq).2.2 }) := rfl

theorem sumBytes_append (l₁ l₂ : List LogEvent) :
    sumBytes (l₁ ++ l₂) = sumBytes l₁ + sumBytes l₂ := by
  simp [sumBytes]

theorem Inv.new (maxLines maxBytes : Nat) :
    Inv (RingBuffer.new maxLines maxBytes) := by
  constructor <;> simp [RingBuffer.new, sumBytes, headSeqD]

theorem Inv.clear {b : RingBuffer} (_h : Inv b) : Inv b.clear := by
  constructor <;> simp [RingBuffer.clear, sumBytes, headSeqD]

theorem Inv.append_snd {b : RingBuffer} (h : Inv b) (text : String)
    (stream : StreamTag) (now : Nat) : Inv (b.append text stream now).2 := by
  rw [append_eq]
  set ev : LogEvent := ⟨b.nextSeq, now, stream, text⟩ with hev
  have hbytes : b.totalBytes + text.utf8ByteSize = sumBytes (b.events ++ [ev]) := by
    rw [sumBytes_append, h.bytesEq]
    simp [sumBytes, LogEvent.bytes, hev]
  have hsorted : (b.events ++ [ev]).Pairwise (fun a c => a.seq < c.seq) := by
    rw [List.pairwise_append]
    refine ⟨h.sorted, by simp, ?_⟩
    intro a ha c hc
    simp only [List.mem_singleton] at hc
    subst hc
    exact h.seqLt a ha
  have hsuffix := evictList_suffix b.maxLines b.maxBytes (b.nextSeq + 1)
    (b.events ++ [ev]) (b.totalBytes + text.utf8ByteSize) b.lowestSeq
  have hsub := hsuffix.sublist
  have hlow : b.lowestSeq = headSeqD (b.events ++ [ev]) (b.nextSeq + 1) := by
    have hl := h.lowEq
    cases hbe : b.events with
    | nil =>
      rw [hbe] at hl
      simp only [headSeqD, List.head?, Option.map, Option.getD] at hl
      simp [headSeqD, hev, hl]
    | cons x xs =>
      rw [hbe] at hl
      simpa [headSeqD] using hl
  constructor
  · exact evictList_bytes _ _ _ _ _ _ hbytes
  · exact hsorted.sublist hsub
  · intro e he
    have hmem := hsub.subset he
    rcases List.mem_append.mp hmem with hmem | hmem
    · exact Nat.lt_succ_of_lt (h.seqLt e hmem)
    · simp only [List.mem_singleton] at hmem
      subst hmem
      simp [hev]
  · exact evictList_lowest _ _ _ _ _ _ hlow
  · exact evictList_length _ _ _ _ _ _
  · exact evictList_bytesCap _ _ _ _ _ _

/-- Every reachable buffer state satisfies the invariant. -/
theorem Reachable.inv {b : RingBuffer} (h : Reachable b) : Inv b := by
  induction h with
  | new maxLines maxBytes => exact Inv.new maxLines maxBytes
  | append b text stream now _ ih => exact ih.append_snd text stream now
  | clear b _ ih => exact ih.clear

/-- Under the invariant, `lowestSeq` bounds every retained sequence number. -/
theorem Inv.lowest_le {b : RingBuffer} (h : Inv b) :
    ∀ e ∈ b.events, b.lowestSeq ≤ e.seq := by
  intro e he
  cases hbe : b.events with
  | nil => rw [hbe] at he; cases he
  | cons x xs =>
    have hl := h.lowEq
    rw [hbe] at hl
    simp only [headSeqD, List.head?, Option.map, Option.getD] at hl
    rw [hbe] at he
    rcases List.mem_cons.mp he with rfl | he
    · exact Nat.le_of_eq hl
    · have hs := h.sorted
      rw [hbe] at hs
      have := (List.pairwise_cons.mp hs).1 e he
      omega

/-- A buffer built by a sequence of appends from a fresh buffer is
reachable. -/
theorem reachable_appendAll (maxLines maxBytes : Nat)
    (xs : List (String × StreamTag × Nat)) :
    Reachable (appendAll (RingBuffer.new maxLines maxBytes) xs) := by
  have h : ∀ (xs : List (String × StreamTag × Nat)) (b : RingBuffer),
      Reachable b → Reachable (appendAll b xs) := by
    intro xs
    induction xs with
    | nil => intro b hb; exact hb
    | cons x rest ih =>
      intro b hb
      exact ih _ (hb.append b x.1 x.2.1 x.2.2)
  exact h xs _ (Reachable.new maxLines maxBytes)

/-- **C1.** For every sequence of `append` calls on a ring buffer configured
with caps `maxLines` and `maxBytes`, after each append (i.e. after every
such sequence) the number of retained events is at most `maxLines`; whenever
the buffer is non-empty, `totalBytes` is at most `maxBytes`; `seq` values
strictly increase in retained order; and `lowestSeq` equals the first
retained event's `seq` when non-empty and `nextSeq` when empty. -/
theorem ringBuffer_append_invariants (maxLines maxBytes : Nat)
    (xs : List (String × StreamTag × Nat)) :
    (appendAll (RingBuffer.new maxLines maxBytes) xs).events.length ≤ maxLines ∧
    ((appendAll (RingBuffer.new maxLines maxBytes) xs).events ≠ [] →
      (appendAll (RingBuffer.new maxLines maxBytes) xs).totalBytes ≤ maxBytes) ∧
    (appendAll (RingBuffer.new maxLines maxBytes) xs).events.Pairwise
      (fun a c => a.seq < c.seq) ∧
    (∀ e, (appendAll (RingBuffer.new maxLines maxBytes) xs).events.head? = some e →
      (appendAll (RingBuffer.new maxLines maxBytes) xs).lowestSeq = e.seq) ∧
    ((appendAll (RingBuffer.new maxLines maxBytes) xs).events = [] →
      (appendAll (RingBuffer.new maxLines maxBytes) xs).lowestSeq =
        (appendAll (RingBuffer.new maxLines maxBytes) xs).nextSeq) := by
  have hml : (appendAll (RingBuffer.new maxLines maxBytes) xs).maxLines = maxLines := by
    have h : ∀ (xs : List (String × StreamTag × Nat)) (b : RingBuffer),
        (appendAll b xs).maxLines = b.maxLines := by
      intro xs
      induction xs with
      | nil => intro b; rfl
      | cons x rest ih => intro b; exact ih _
    exact h xs _
  have hmb : (appendAll (RingBuffer.new maxLines maxBytes) xs).maxBytes = maxBytes := by
    have h : ∀ (xs : List (String × StreamTag × Nat)) (b : RingBuffer),
        (appendAll b xs).maxBytes = b.maxBytes := by
      intro xs
      induction xs with
      | nil => intro b; rfl
      | cons x rest ih => intro b; exact ih _
    exact h xs _
  have hinv := (reachable_appendAll maxLines maxBytes xs).inv
  refine ⟨?_, ?_, hinv.sorted, ?_, ?_⟩
  · have hle := hinv.lines
    rw [hml] at hle
    exact hle
  · intro hne
    have hle := hinv.bytesCap hne
    rw [hmb] at hle
    exact hle
  · intro e he
    have hl := hinv.lowEq
    rw [headSeqD, he] at hl
    simpa using hl
  · intro he
    have hl := hinv.lowEq
    rw [headSeqD, he] at hl
    simpa using hl

theorem sumBytes_cons (e : LogEvent) (l : List LogEvent) :
    sumBytes (e :: l) = e.bytes + sumBytes l := by
  simp [sumBytes]

/-- Core description of the limit phase: when `truncated` is `false` the
kept list is the whole candidate list; when it is `true` the candidates
decompose as the kept list followed by a first rejected event, and that
event was rejected by the line cap or by the byte cap. -/
theorem limitLoop_spec (mL mB : Nat) :
    ∀ (cands : List LogEvent) (count bytes : Nat),
      ((limitLoop mL mB cands count bytes).2 = false →
        cands = (limitLoop mL mB cands count bytes).1) ∧
      ((limitLoop mL mB cands count bytes).2 = true →
        ∃ e t, cands = (limitLoop mL mB cands count bytes).1 ++ e :: t ∧
          (mL ≤ count + (limitLoop mL mB cands count bytes).1.length ∨
           mB < bytes + sumBytes (limitLoop mL mB cands count bytes).1 + e.bytes)) := by
  intro cands
  induction cands with
  | nil =>
    intro count bytes
    constructor
    · intro _; rfl
    · intro h; simp [limitLoop] at h
  | cons e rest ih =>
    intro count bytes
    rw [limitLoop]
    by_cases hc1 : mL ≤ count
    · rw [if_pos hc1]
      refine ⟨fun h => by simp at h, fun _ => ⟨e, rest, by simp, Or.inl (by simpa using hc1)⟩⟩
    · rw [if_neg hc1]
      by_cases hc2 : mB < bytes + e.bytes ∧ 0 < count
      · rw [if_pos hc2]
        refine ⟨fun h => by simp at h, fun _ => ⟨e, rest, by simp, Or.inr ?_⟩⟩
        simp only [List.length_nil, sumBytes, List.map_nil, List.sum_nil]
        omega
      · rw [if_neg hc2]
        obtain ⟨ih1, ih2⟩ := ih (count + 1) (bytes + e.bytes)
        constructor
        · intro h
          simp only at h
          exact congrArg (e :: ·) (ih1 h)
        · intro h
          simp only at h
          obtain ⟨f, t, hdec, hdisj⟩ := ih2 h
          refine ⟨f, t, by simpa using congrArg (e :: ·) hdec, ?_⟩
          rcases hdisj with hd | hd
          · exact Or.inl (by simp only [List.length_cons]; omega)
          · refine Or.inr ?_
            rw [sumBytes_cons]
            omega

theorem limitLoop_truncated_eq (mL mB : Nat) (cands : List LogEvent)
    (count bytes : Nat) :
    (limitLoop mL mB cands count bytes).2 =
      decide ((limitLoop mL mB cands count bytes).1.length < cands.length) := by
  obtain ⟨h1, h2⟩ := limitLoop_spec mL mB cands count bytes
  cases hb : (limitLoop mL mB cands count bytes).2 with
  | false =>
    have hlen := congrArg List.length (h1 hb)
    simp only [hlen]
    simp
  | true =>
    obtain ⟨e, t, hdec, _⟩ := h2 hb
    have hlen := congrArg List.length hdec
    simp only [List.length_append, List.length_cons] at hlen
    rw [hlen]
    simp

theorem limitLoop_length_le (mL mB : Nat) :
    ∀ (cands : List LogEvent) (count bytes : Nat),
      (limitLoop mL mB cands count bytes).1.length ≤ mL - count := by
  intro cands
  induction cands with
  | nil => intro count bytes; simp [limitLoop]
  | cons e rest ih =>
    intro count bytes
    rw [limitLoop]
    by_cases hc1 : mL ≤ count
    · rw [if_pos hc1]; simp
    · rw [if_neg hc1]
      by_cases hc2 : mB < bytes + e.bytes ∧ 0 < count
      · rw [if_pos hc2]; simp
      · rw [if_neg hc2]
        have := ih (count + 1) (bytes + e.bytes)
        simp only [List.length_cons]
        omega

theorem limitLoop_ne_nil (mL mB : Nat) (cands : List LogEvent) (bytes : Nat)
    (h0 : 0 < mL) (hne : cands ≠ []) :
    (limitLoop mL mB cands 0 bytes).1 ≠ [] := by
  cases cands with
  | nil => exact absurd rfl hne
  | cons e rest =>
    rw [limitLoop, if_neg (by omega), if_neg (by simp)]
    simp

theorem limitLoop_sublist (mL mB : Nat) (cands : List LogEvent)
    (count bytes : Nat) :
    List.Sublist (limitLoop mL mB cands count bytes).1 cands := by
  obtain ⟨h1, h2⟩ := limitLoop_spec mL mB cands count bytes
  cases hb : (limitLoop mL mB cands count bytes).2 with
  | false => rw [← h1 hb]
  | true =>
    obtain ⟨e, t, hdec, _⟩ := h2 hb
    conv_rhs => rw [hdec]
    exact List.sublist_append_left _ _

theorem filteredCandidates_ok_elim {oracle : JsRegexOracle} {now : Nat}
    {b : RingBuffer} {opts : QueryOptions} {cands : List LogEvent}
    (h : filteredCandidates oracle now b opts = .ok cands) :
    ∃ m, grepMatcherE oracle opts = .ok m ∧
      cands = applyGrep opts.invert m (streamFiltered opts (windowEvents now b opts)) := by
  unfold filteredCandidates at h
  cases hg : grepMatcherE oracle opts with
  | error e => rw [hg] at h; cases h
  | ok m =>
    rw [hg] at h
    injection h with h
    exact ⟨m, rfl, h.symm⟩

theorem query_ok_elim {oracle : JsRegexOracle} {now : Nat} {b : RingBuffer}
    {opts : QueryOptions} {r : QueryResult}
    (h : RingBuffer.query oracle now b opts = .ok r) :
    ∃ cands, filteredCandidates oracle now b opts = .ok cands ∧
      r.events = (limitLoop (opts.maxLines.getD 80) (opts.maxBytes.getD 32768) cands 0 0).1 ∧
      r.truncated = (limitLoop (opts.maxLines.getD 80) (opts.maxBytes.getD 32768) cands 0 0).2 ∧
      r.cursorNext = (match r.events.getLast? with
        | some e => e.seq + 1
        | none => b.nextSeq) ∧
      r.dropped = droppedFlag b opts := by
  unfold RingBuffer.query at h
  cases hfc : filteredCandidates oracle now b opts with
  | error e => rw [hfc] at h; cases h
  | ok cands =>
    rw [hfc] at h
    injection h with h
    subst h
    exact ⟨cands, rfl, rfl, rfl, rfl, rfl⟩

theorem windowEvents_sublist (now : Nat) (b : RingBuffer)
    (opts : QueryOptions) :
    List.Sublist (windowEvents now b opts) b.events := by
  cases hsc : opts.sinceCursor with
  | some c =>
    simp only [windowEvents, hsc]
    exact List.filter_sublist _
  | none =>
    cases hsm : opts.sinceMs with
    | some d =>
      simp only [windowEvents, hsc, hsm]
      exact List.filter_sublist _
    | none =>
      cases hsl : opts.last with
      | some n =>
        simp only [windowEvents, hsc, hsm, hsl]
        split
        · exact List.Sublist.refl _
        · exact List.drop_sublist _ _
      | none =>
        simp only [windowEvents, hsc, hsm, hsl]
        exact List.Sublist.refl _

theorem streamFiltered_sublist (opts : QueryOptions) (l : List LogEvent) :
    List.Sublist (streamFiltered opts l) l := by
  cases hs : opts.stream with
  | some s =>
    simp only [streamFiltered, hs]
    split
    · exact List.Sublist.refl _
    · exact List.filter_sublist _
  | none =>
    simp only [streamFiltered, hs]
    exact List.Sublist.refl _

theorem applyGrep_sublist (invert : Bool) (m : Option (String → Bool))
    (l : List LogEvent) : List.Sublist (applyGrep invert m l) l := by
  cases m with
  | none => exact List.Sublist.refl _
  | some f => exact List.filter_sublist _

/-- Every event a query returns is a retained event of the buffer, and the
returned list respects the buffer order (it is a sublist). -/
theorem query_events_sublist {oracle : JsRegexOracle} {now : Nat}
    {b : RingBuffer} {opts : QueryOptions} {r : QueryResult}
    (h : RingBuffer.query oracle now b opts = .ok r) :
    List.Sublist r.events b.events := by
  obtain ⟨cands, hfc, hev, -, -, -⟩ := query_ok_elim h
  obtain ⟨m, -, hcands⟩ := filteredCandidates_ok_elim hfc
  rw [hev, hcands]
  exact ((limitLoop_sublist _ _ _ _ _).trans
    (applyGrep_sublist _ _ _)).trans
    ((streamFiltered_sublist _ _).trans (windowEvents_sublist _ _ _))

theorem windowEvents_seq_ge {now : Nat} {b : RingBuffer}
    {opts : QueryOptions} {c : Nat} (hsc : opts.sinceCursor = some c) :
    ∀ e ∈ windowEvents now b opts, c ≤ e.seq := by
  intro e he
  simp only [windowEvents, hsc] at he
  exact of_decide_eq_true (List.mem_filter.mp he).2

/-- With a `sinceCursor = c` window, every returned event has `seq ≥ c`
(in any buffer state whatsoever). -/
theorem query_mem_seq_ge {oracle : JsRegexOracle} {now : Nat}
    {b : RingBuffer} {opts : QueryOptions} {c : Nat} {r : QueryResult}
    (hsc : opts.sinceCursor = some c)
    (h : RingBuffer.query oracle now b opts = .ok r) :
    ∀ e ∈ r.events, c ≤ e.seq := by
  obtain ⟨cands, hfc, hev, -, -, -⟩ := query_ok_elim h
  obtain ⟨m, -, hcands⟩ := filteredCandidates_ok_elim hfc
  intro e he
  rw [hev, hcands] at he
  have hmem := (((limitLoop_sublist _ _ _ _ _).trans
    (applyGrep_sublist _ _ _)).trans (streamFiltered_sublist _ _)).subset he
  exact windowEvents_seq_ge hsc e hmem

theorem sorted_le_getLast :
    ∀ (l : List LogEvent), l.Pairwise (fun a c => a.seq < c.seq) →
      ∀ e ∈ l, ∀ x, l.getLast? = some x → e.seq ≤ x.seq := by
  intro l
  induction l with
  | nil => intro _ e he; cases he
  | cons a rest ih =>
    intro hp e he x hx
    cases hrest : rest with
    | nil =>
      subst hrest
      simp only [List.getLast?_singleton, Option.some.injEq] at hx
      subst hx
      simp only [List.mem_singleton] at he
      subst he
      exact Nat.le_refl _
    | cons b' rest' =>
      subst hrest
      rw [List.getLast?_cons_cons] at hx
      have hxmem : x ∈ b' :: rest' :=
        List.mem_of_mem_getLast? (by rw [hx]; rfl)
      rcases List.mem_cons.mp he with rfl | he
      · exact Nat.le_of_lt ((List.pairwise_cons.mp hp).1 x hxmem)
      · exact ih (List.pairwise_cons.mp hp).2 e he x hx

/-- Every event a query returns has `seq` strictly below the returned
`cursorNext` (this uses the buffer invariant for sortedness). -/
theorem query_seq_lt_cursorNext {oracle : JsRegexOracle} {now : Nat}
    {b : RingBuffer} {opts : QueryOptions} {r : QueryResult}
    (hinv : Inv b) (h : RingBuffer.query oracle now b opts = .ok r) :
    ∀ e ∈ r.events, e.seq < r.cursorNext := by
  intro e he
  obtain ⟨-, -, -, -, hcn, -⟩ := query_ok_elim h
  have hsorted : r.events.Pairwise (fun a c => a.seq < c.seq) :=
    hinv.sorted.sublist (query_events_sublist h)
  cases hlast : r.events.getLast? with
  | none =>
    rw [List.getLast?_eq_none_iff] at hlast
    rw [hlast] at he
    cases he
  | some x =>
    have hle := sorted_le_getLast r.events hsorted e he x hlast
    rw [hcn, hlast]
    show e.seq < x.seq + 1
    omega

/-- Witness for C1 at a concrete cap configuration and append sequence. -/
theorem ringBuffer_append_invariants_witness :
    (appendAll (RingBuffer.new 2 100) [("alpha", .combined, 0),
        ("beta", .stdout, 1), ("gamma", .stderr, 2)]).events.length ≤ 2 ∧
    ((appendAll (RingBuffer.new 2 100) [("alpha", .combined, 0),
        ("beta", .stdout, 1), ("gamma", .stderr, 2)]).events ≠ [] →
      (appendAll (RingBuffer.new 2 100) [("alpha", .combined, 0),
        ("beta", .stdout, 1), ("gamma", .stderr, 2)]).totalBytes ≤ 100) ∧
    (appendAll (RingBuffer.new 2 100) [("alpha", .combined, 0),
        ("beta", .stdout, 1), ("gamma", .stderr, 2)]).events.Pairwise
      (fun a c => a.seq < c.seq) ∧
    (∀ e, (appendAll (RingBuffer.new 2 100) [("alpha", .combined, 0),
        ("beta", .stdout, 1), ("gamma", .stderr, 2)]).events.head? = some e →
      (appendAll (RingBuffer.new 2 100) [("alpha", .combined, 0),
        ("beta", .stdout, 1), ("gamma", .stderr, 2)]).lowestSeq = e.seq) ∧
    ((appendAll (RingBuffer.new 2 100) [("alpha", .combined, 0),
        ("beta", .stdout, 1), ("gamma", .stderr, 2)]).events = [] →
      (appendAll (RingBuffer.new 2 100) [("alpha", .combined, 0),
        ("beta", .stdout, 1), ("gamma", .stderr, 2)]).lowestSeq =
        (appendAll (RingBuffer.new 2 100) [("alpha", .combined, 0),
        ("beta", .stdout, 1), ("gamma", .stderr, 2)]).nextSeq) :=
  ringBuffer_append_invariants 2 100
    [("alpha", .combined, 0), ("beta", .stdout, 1), ("gamma", .stderr, 2)]

/-- **C2.** For every reachable buffer state and cursor `c`, a query with
`sinceCursor = c` returns only events with `seq ≥ c` and sets `dropped`
exactly when `c < lowestSeq`; and when `c < lowestSeq` the outcome agrees
(up to the `dropped` flag) with the query at `sinceCursor = lowestSeq`, i.e.
the retained events with `seq ≥ lowestSeq` are still returned, subject to
the same filters and limits. -/
theorem query_sinceCursor_window (b : RingBuffer) (hreach : Reachable b)
    (oracle : JsRegexOracle) (now : Nat) (opts : QueryOptions) (c : Nat)
    (hsc : opts.sinceCursor = some c) :
    (∀ r, RingBuffer.query oracle now b opts = .ok r →
      ((∀ e ∈ r.events, c ≤ e.seq) ∧ r.dropped = decide (c < b.lowestSeq))) ∧
    (c < b.lowestSeq →
      sameUpToDropped (RingBuffer.query oracle now b opts)
        (RingBuffer.query oracle now b
          { opts with sinceCursor := some b.lowestSeq })) := by
  constructor
  · intro r hr
    refine ⟨query_mem_seq_ge hsc hr, ?_⟩
    obtain ⟨-, -, -, -, -, hdr⟩ := query_ok_elim hr
    rw [hdr, droppedFlag, hsc]
  · intro hlt
    have hall : ∀ e ∈ b.events, b.lowestSeq ≤ e.seq := hreach.inv.lowest_le
    have hwin1 : windowEvents now b opts = b.events := by
      simp only [windowEvents, hsc]
      exact List.filter_eq_self.mpr
        (fun e he => decide_eq_true (Nat.le_of_lt (Nat.lt_of_lt_of_le hlt (hall e he))))
    have hwin2 : windowEvents now b
        { opts with sinceCursor := some b.lowestSeq } = b.events := by
      show b.events.filter (fun e => decide (b.lowestSeq ≤ e.seq)) = b.events
      exact List.filter_eq_self.mpr (fun e he => decide_eq_true (hall e he))
    have hfc : filteredCandidates oracle now b opts =
        filteredCandidates oracle now b
          { opts with sinceCursor := some b.lowestSeq } := by
      unfold filteredCandidates
      have hg : grepMatcherE oracle
          { opts with sinceCursor := some b.lowestSeq } =
          grepMatcherE oracle opts := rfl
      rw [hg]
      cases grepMatcherE oracle opts with
      | error e => rfl
      | ok m =>
        rw [hwin1, hwin2]
        rfl
    unfold RingBuffer.query
    rw [← hfc]
    cases filteredCandidates oracle now b opts with
    | error e => exact rfl
    | ok cands => exact ⟨rfl, rfl, rfl⟩

/-- Witness for C2 at a concrete reachable buffer (`maxLines = 2`, three
appends, so `lowestSeq = 2`) and cursor `1 < lowestSeq`. -/
theorem query_sinceCursor_window_witness :
    (∀ r, RingBuffer.query oracleTrue 0
        (appendAll (RingBuffer.new 2 100)
          [("one", .combined, 0), ("two", .combined, 0), ("three", .combined, 0)])
        { sinceCursor := some 1 } = .ok r →
      ((∀ e ∈ r.events, 1 ≤ e.seq) ∧
        r.dropped = decide (1 < (appendAll (RingBuffer.new 2 100)
          [("one", .combined, 0), ("two", .combined, 0),
           ("three", .combined, 0)]).lowestSeq))) ∧
    (1 < (appendAll (RingBuffer.new 2 100)
        [("one", .combined, 0), ("two", .combined, 0),
         ("three", .combined, 0)]).lowestSeq →
      sameUpToDropped
        (RingBuffer.query oracleTrue 0
          (appendAll (RingBuffer.new 2 100)
            [("one", .combined, 0), ("two", .combined, 0), ("three", .combined, 0)])
          { sinceCursor := some 1 })
        (RingBuffer.query oracleTrue 0
          (appendAll (RingBuffer.new 2 100)
            [("one", .combined, 0), ("two", .combined, 0), ("three", .combined, 0)])
          { ({ sinceCursor := some 1 } : QueryOptions) with
              sinceCursor := some (appendAll (RingBuffer.new 2 100)
                [("one", .combined, 0), ("two", .combined, 0),
                 ("three", .combined, 0)]).lowestSeq })) :=
  query_sinceCursor_window _
    (reachable_appendAll 2 100
      [("one", .combined, 0), ("two", .combined, 0), ("three", .combined, 0)])
    oracleTrue 0 { sinceCursor := some 1 } 1 rfl

/-- **C3.** For every query result `q` over a reachable buffer state,
`cursorNext` is the last returned event's `seq + 1` when the returned list
is non-empty and the buffer's current `nextSeq` when it is empty; and a
subsequent query with `sinceCursor = q.cursorNext` — after any sequence of
appends in between — returns no event `q` returned (no shared `seq`). -/
theorem query_cursorNext_progress (b : RingBuffer) (hreach : Reachable b)
    (oracle : JsRegexOracle) (now : Nat) (opts : QueryOptions)
    (q : QueryResult)
    (hq : RingBuffer.query oracle now b opts = .ok q) :
    q.cursorNext = (match q.events.getLast? with
      | some e => e.seq + 1
      | none => b.nextSeq) ∧
    ∀ (xs : List (String × StreamTag × Nat)) (oracle₂ : JsRegexOracle)
      (now₂ : Nat) (opts₂ : QueryOptions) (q₂ : QueryResult),
      opts₂.sinceCursor = some q.cursorNext →
      RingBuffer.query oracle₂ now₂ (appendAll b xs) opts₂ = .ok q₂ →
      ∀ e ∈ q.events, ∀ e₂ ∈ q₂.events, e.seq ≠ e₂.seq := by
  obtain ⟨-, -, -, -, hcn, -⟩ := query_ok_elim hq
  refine ⟨hcn, ?_⟩
  intro xs oracle₂ now₂ opts₂ q₂ hsc₂ hq₂ e he e₂ he₂
  have h1 : e.seq < q.cursorNext := query_seq_lt_cursorNext hreach.inv hq e he
  have h2 : q.cursorNext ≤ e₂.seq := query_mem_seq_ge hsc₂ hq₂ e₂ he₂
  omega

/-- Witness for C3: a concrete two-event buffer, the full query, and its
concrete result (`cursorNext = 3`). -/
theorem query_cursorNext_progress_witness :
    (⟨[⟨1, 0, .combined, "a"⟩, ⟨2, 0, .combined, "b"⟩], 3, false, false⟩ :
        QueryResult).cursorNext =
      (match (⟨[⟨1, 0, .combined, "a"⟩, ⟨2, 0, .combined, "b"⟩], 3, false,
          false⟩ : QueryResult).events.getLast? with
        | some e => e.seq + 1
        | none => (appendAll (RingBuffer.new 5000 10000000)
            [("a", .combined, 0), ("b", .combined, 0)]).nextSeq) ∧
    ∀ (xs : List (String × StreamTag × Nat)) (oracle₂ : JsRegexOracle)
      (now₂ : Nat) (opts₂ : QueryOptions) (q₂ : QueryResult),
      opts₂.sinceCursor = some (⟨[⟨1, 0, .combined, "a"⟩,
          ⟨2, 0, .combined, "b"⟩], 3, false, false⟩ : QueryResult).cursorNext →
      RingBuffer.query oracle₂ now₂
        (appendAll (appendAll (RingBuffer.new 5000 10000000)
          [("a", .combined, 0), ("b", .combined, 0)]) xs) opts₂ = .ok q₂ →
      ∀ e ∈ (⟨[⟨1, 0, .combined, "a"⟩, ⟨2, 0, .combined, "b"⟩], 3, false,
          false⟩ : QueryResult).events, ∀ e₂ ∈ q₂.events, e.seq ≠ e₂.seq :=
  query_cursorNext_progress _
    (reachable_appendAll 5000 10000000 [("a", .combined, 0), ("b", .combined, 0)])
    oracleTrue 0 {}
    ⟨[⟨1, 0, .combined, "a"⟩, ⟨2, 0, .combined, "b"⟩], 3, false, false⟩
    (by rfl)

/-- **C4.** With the default limit caps (`maxLines` and `maxBytes` absent,
hence 80 and 32768), the limit phase keeps a prefix of the filtered
candidates, keeps at least one event whenever any candidate remains (even a
single oversize line), sets `truncated` exactly when it stopped before
exhausting the candidates, and any stop happens at the first event that
would exceed a cap: either 80 events are already kept or the next event
would push the byte total past 32768. -/
theorem query_limit_phase (oracle : JsRegexOracle) (now : Nat)
    (b : RingBuffer) (opts : QueryOptions) (cands : List LogEvent)
    (r : QueryResult)
    (hml : opts.maxLines = none) (hmb : opts.maxBytes = none)
    (hfc : filteredCandidates oracle now b opts = .ok cands)
    (hq : RingBuffer.query oracle now b opts = .ok r) :
    (∃ t, cands = r.events ++ t) ∧
    (cands ≠ [] → r.events ≠ []) ∧
    r.truncated = decide (r.events.length < cands.length) ∧
    (r.truncated = true →
      ∃ e t, cands = r.events ++ e :: t ∧
        (r.events.length = 80 ∨ 32768 < sumBytes r.events + e.bytes)) := by
  obtain ⟨cands', hfc', hev, htr, -, -⟩ := query_ok_elim hq
  rw [hfc] at hfc'
  injection hfc' with hfc'
  subst hfc'
  simp only [hml, hmb, Option.getD_none] at hev htr
  obtain ⟨h1, h2⟩ := limitLoop_spec 80 32768 cands 0 0
  refine ⟨?_, ?_, ?_, ?_⟩
  · cases hb : (limitLoop 80 32768 cands 0 0).2 with
    | false =>
      refine ⟨[], ?_⟩
      rw [List.append_nil, hev]
      exact h1 hb
    | true =>
      obtain ⟨e, t, hdec, -⟩ := h2 hb
      exact ⟨e :: t, by rw [hev]; exact hdec⟩
  · intro hne
    rw [hev]
    exact limitLoop_ne_nil 80 32768 cands 0 (by omega) hne
  · rw [hev, htr]
    exact limitLoop_truncated_eq 80 32768 cands 0 0
  · intro htrue
    rw [htr] at htrue
    obtain ⟨e, t, hdec, hdisj⟩ := h2 htrue
    refine ⟨e, t, by rw [hev]; exact hdec, ?_⟩
    rw [hev]
    rcases hdisj with hd | hd
    · left
      have hle := limitLoop_length_le 80 32768 cands 0 0
      omega
    · right
      omega

/-- Witness for C4 at a concrete buffer, candidate list, and result. -/
theorem query_limit_phase_witness :
    (∃ t, [(⟨1, 0, StreamTag.combined, "a"⟩ : LogEvent),
        ⟨2, 0, .combined, "b"⟩] =
      (⟨[⟨1, 0, .combined, "a"⟩, ⟨2, 0, .combined, "b"⟩], 3, false, false⟩ :
        QueryResult).events ++ t) ∧
    ([(⟨1, 0, StreamTag.combined, "a"⟩ : LogEvent), ⟨2, 0, .combined, "b"⟩] ≠ [] →
      (⟨[⟨1, 0, .combined, "a"⟩, ⟨2, 0, .combined, "b"⟩], 3, false, false⟩ :
        QueryResult).events ≠ []) ∧
    (⟨[⟨1, 0, .combined, "a"⟩, ⟨2, 0, .combined, "b"⟩], 3, false, false⟩ :
        QueryResult).truncated =
      decide ((⟨[⟨1, 0, .combined, "a"⟩, ⟨2, 0, .combined, "b"⟩], 3, false,
          false⟩ : QueryResult).events.length <
        [(⟨1, 0, StreamTag.combined, "a"⟩ : LogEvent),
          ⟨2, 0, .combined, "b"⟩].length) ∧
    ((⟨[⟨1, 0, .combined, "a"⟩, ⟨2, 0, .combined, "b"⟩], 3, false, false⟩ :
        QueryResult).truncated = true →
      ∃ e t, [(⟨1, 0, StreamTag.combined, "a"⟩ : LogEvent),
          ⟨2, 0, .combined, "b"⟩] =
        (⟨[⟨1, 0, .combined, "a"⟩, ⟨2, 0, .combined, "b"⟩], 3, false, false⟩ :
          QueryResult).events ++ e :: t ∧
        ((⟨[⟨1, 0, .combined, "a"⟩, ⟨2, 0, .combined, "b"⟩], 3, false, false⟩ :
          QueryResult).events.length = 80 ∨
          32768 < sumBytes (⟨[⟨1, 0, .combined, "a"⟩,
            ⟨2, 0, .combined, "b"⟩], 3, false, false⟩ :
              QueryResult).events + e.bytes)) :=
  query_limit_phase oracleTrue 0
    (appendAll (RingBuffer.new 5000 10000000)
      [("a", .combined, 0), ("b", .combined, 0)])
    {} [⟨1, 0, .combined, "a"⟩, ⟨2, 0, .combined, "b"⟩]
    ⟨[⟨1, 0, .combined, "a"⟩, ⟨2, 0, .combined, "b"⟩], 3, false, false⟩
    rfl rfl (by rfl) (by rfl)

/-- Counterexample to C5 as stated: `query` with the regex flag and the
grep pattern `.*.*` throws (propagated from `createSafeRegex`), so query is
not total over all `QueryOptions`. -/
theorem buffer_ops_totality_cex :
    RingBuffer.query oracleTrue 0 (RingBuffer.new 5000 10000000)
      { grep := some ".*.*", regex := true } =
      .error "Regex pattern contains potentially dangerous backtracking constructs" := by
  rfl

theorem grepMatcherE_ok_query_ok (oracle : JsRegexOracle) (now : Nat)
    (b : RingBuffer) (opts : QueryOptions) (m : Option (String → Bool))
    (h : grepMatcherE oracle opts = .ok m) :
    ∃ r, RingBuffer.query oracle now b opts = .ok r := by
  unfold RingBuffer.query filteredCandidates
  rw [h]
  exact ⟨_, rfl⟩

/-- **C5 (amended).** `append` never fails: it always returns the event
carrying `nextSeq` and advances `nextSeq`.  `query` returns a result for
every `QueryOptions` whose grep filter does not take the regex path; when
the regex path is active (non-empty `grep` with the regex flag), `query`
returns a result exactly when the pattern passes the shared safe-regex
validation, and throws otherwise. -/
theorem buffer_ops_totality :
    (∀ (b : RingBuffer) (text : String) (stream : StreamTag) (now : Nat),
      (b.append text stream now).1.seq = b.nextSeq ∧
      (b.append text stream now).2.nextSeq = b.nextSeq + 1) ∧
    (∀ (oracle : JsRegexOracle) (now : Nat) (b : RingBuffer)
        (opts : QueryOptions),
      (grepActive opts && opts.regex) = false →
      ∃ r, RingBuffer.query oracle now b opts = .ok r) ∧
    (∀ (oracle : JsRegexOracle) (now : Nat) (b : RingBuffer)
        (opts : QueryOptions) (p : String),
      opts.grep = some p → p.isEmpty = false → opts.regex = true →
      ((∃ r, RingBuffer.query oracle now b opts = .ok r) ↔
        validateRegexPattern oracle.compiles p = .ok ())) := by
  refine ⟨fun b text stream now => ⟨rfl, rfl⟩, ?_, ?_⟩
  · intro oracle now b opts h
    cases hg : opts.grep with
    | none =>
      exact grepMatcherE_ok_query_ok oracle now b opts none
        (by simp [grepMatcherE, hg])
    | some p =>
      by_cases hpe : p.isEmpty
      · exact grepMatcherE_ok_query_ok oracle now b opts none
          (by simp [grepMatcherE, hg, hpe])
      · have hre : opts.regex = false := by
          simp only [grepActive, hg, hpe, Bool.not_false, Bool.true_and] at h
          exact h
        exact grepMatcherE_ok_query_ok oracle now b opts
          (some (substringMatcher opts.caseSensitive p))
          (by simp [grepMatcherE, hg, hpe, hre])
  · intro oracle now b opts p hg hpe hre
    cases hv : validateRegexPattern oracle.compiles p with
    | ok u =>
      cases u
      refine ⟨fun _ => rfl, fun _ => ?_⟩
      exact grepMatcherE_ok_query_ok oracle now b opts
        (some (fun text =>
          oracle.test p (if opts.caseSensitive then "" else "i") text))
        (by simp [grepMatcherE, hg, hpe, hre, createSafeRegex, hv])
    | error msg =>
      constructor
      · intro hr
        obtain ⟨r, hr⟩ := hr
        have herr : RingBuffer.query oracle now b opts = .error msg := by
          unfold RingBuffer.query filteredCandidates
          rw [show grepMatcherE oracle opts = .error msg from
            by simp [grepMatcherE, hg, hpe, hre, createSafeRegex, hv]]
        rw [herr] at hr
        cases hr
      · intro hok
        cases hok

/-- Witness for C5 (amended) at concrete inputs: a concrete append, a
substring-grep query, and a regex query with a dangerous pattern. -/
theorem buffer_ops_totality_witness :
    ((RingBuffer.new 5000 10000000).append "x" .combined 0).1.seq = 1 ∧
    (∃ r, RingBuffer.query oracleTrue 0 (RingBuffer.new 5000 10000000)
      { grep := some "abc" } = .ok r) ∧
    ((∃ r, RingBuffer.query oracleTrue 0 (RingBuffer.new 5000 10000000)
        { grep := some ".*.*", regex := true } = .ok r) ↔
      validateRegexPattern oracleTrue.compiles ".*.*" = .ok ()) :=
  ⟨(buffer_ops_totality.1 (RingBuffer.new 5000 10000000) "x" .combined 0).1,
   buffer_ops_totality.2.1 oracleTrue 0 (RingBuffer.new 5000 10000000)
     { grep := some "abc" } (by rfl),
   buffer_ops_totality.2.2 oracleTrue 0 (RingBuffer.new 5000 10000000)
     { grep := some ".*.*", regex := true } ".*.*" rfl rfl rfl⟩

/-- Counterexample to C9 as stated: the four five-byte lines total exactly
20 bytes, which does not strictly exceed `maxBytes = 20`, so nothing is
evicted — the events with `seq` 1 and 2 are still retained and
`lowestSeq = 1`, not `≥ 3`. -/
theorem byteCap_scenario_cex :
    ¬(3 ≤ byteCapDemo.lowestSeq) ∧
    (∃ e ∈ byteCapDemo.events, e.seq = 1) ∧
    (∃ e ∈ byteCapDemo.events, e.seq = 2) := by
  decide

/-- **C9 (amended).** With `maxBytes = 20` and the line cap at its default,
appending the four five-byte lines retains exactly 20 bytes — within the
cap, so eviction never fires: all four events (seqs 1..4) remain retained
and `lowestSeq = 1`. -/
theorem byteCap_scenario :
    byteCapDemo.totalBytes = 20 ∧ byteCapDemo.totalBytes ≤ 20 ∧
    byteCapDemo.events.map LogEvent.seq = [1, 2, 3, 4] ∧
    byteCapDemo.lowestSeq = 1 ∧ byteCapDemo.nextSeq = 5 := by
  decide

theorem evictList_oversize (mL mB ns : Nat) (ev : LogEvent)
    (hbig : mB < ev.bytes) :
    ∀ (pre : List LogEvent) (ls : Nat),
      evictList mL mB ns (pre ++ [ev]) (sumBytes (pre ++ [ev])) ls =
        ([], 0, ns) := by
  intro pre
  induction pre with
  | nil =>
    intro ls
    have hgt : sumBytes [ev] > mB := by
      simp only [sumBytes, List.map_cons, List.map_nil, List.sum_cons,
        List.sum_nil]
      omega
    rw [List.nil_append, evictList,
      if_pos (by simp only [Bool.or_eq_true, decide_eq_true_eq]; exact Or.inr hgt)]
    rw [evictList]
    simp [sumBytes]
  | cons p pre' ih =>
    intro ls
    rw [List.cons_append]
    have hsum : sumBytes (p :: (pre' ++ [ev])) =
        p.bytes + sumBytes (pre' ++ [ev]) := sumBytes_cons _ _
    have hev2 : ev.bytes ≤ sumBytes (pre' ++ [ev]) := by
      rw [sumBytes_append]
      simp [sumBytes]
    have hgt : sumBytes (p :: (pre' ++ [ev])) > mB := by
      rw [hsum]
      omega
    rw [evictList,
      if_pos (by simp only [Bool.or_eq_true, decide_eq_true_eq]; exact Or.inr hgt)]
    have harg : sumBytes (p :: (pre' ++ [ev])) - p.bytes =
        sumBytes (pre' ++ [ev]) := by
      rw [hsum]
      omega
    rw [harg]
    exact ih _

theorem query_empty_events {oracle : JsRegexOracle} {now : Nat}
    {b : RingBuffer} {opts : QueryOptions} {r : QueryResult}
    (hemp : b.events = [])
    (h : RingBuffer.query oracle now b opts = .ok r) : r.events = [] := by
  have hsub := query_events_sublist h
  rw [hemp] at hsub
  exact List.sublist_nil.mp hsub

/-- **C10.** Appending a text whose UTF-8 byte length exceeds `maxBytes`
(from any reachable state) returns the event carrying `nextSeq`, but leaves
the buffer empty: everything — including the event just appended — is
evicted, `totalBytes` becomes 0, `lowestSeq` becomes the new `nextSeq`, and
any subsequent successful query returns no events. -/
theorem append_oversize (b : RingBuffer) (hreach : Reachable b)
    (text : String) (stream : StreamTag) (now : Nat)
    (hbig : b.maxBytes < text.utf8ByteSize) :
    (b.append text stream now).1.seq = b.nextSeq ∧
    (b.append text stream now).1.text = text ∧
    (b.append text stream now).2.events = [] ∧
    (b.append text stream now).2.totalBytes = 0 ∧
    (b.append text stream now).2.nextSeq = b.nextSeq + 1 ∧
    (b.append text stream now).2.lowestSeq =
      (b.append text stream now).2.nextSeq ∧
    (∀ (oracle : JsRegexOracle) (now₂ : Nat) (opts : QueryOptions)
        (r : QueryResult),
      RingBuffer.query oracle now₂ (b.append text stream now).2 opts = .ok r →
      r.events = []) := by
  have hinv := hreach.inv
  have hbytes : b.totalBytes + text.utf8ByteSize =
      sumBytes (b.events ++ [⟨b.nextSeq, now, stream, text⟩]) := by
    rw [sumBytes_append, hinv.bytesEq]
    simp [sumBytes, LogEvent.bytes]
  have hall := evictList_oversize b.maxLines b.maxBytes (b.nextSeq + 1)
    ⟨b.nextSeq, now, stream, text⟩ hbig b.events b.lowestSeq
  rw [append_eq]
  rw [← hbytes] at hall
  rw [hall]
  refine ⟨rfl, rfl, rfl, rfl, rfl, rfl, ?_⟩
  intro oracle now₂ opts r hq
  exact query_empty_events rfl hq

/-- Witness for C10: a fresh buffer with `maxBytes = 4` and the five-byte
line `"hello"`. -/
theorem append_oversize_witness :
    ((RingBuffer.new 5000 4).append "hello" .combined 7).1.seq =
      (RingBuffer.new 5000 4).nextSeq ∧
    ((RingBuffer.new 5000 4).append "hello" .combined 7).1.text = "hello" ∧
    ((RingBuffer.new 5000 4).append "hello" .combined 7).2.events = [] ∧
    ((RingBuffer.new 5000 4).append "hello" .combined 7).2.totalBytes = 0 ∧
    ((RingBuffer.new 5000 4).append "hello" .combined 7).2.nextSeq =
      (RingBuffer.new 5000 4).nextSeq + 1 ∧
    ((RingBuffer.new 5000 4).append "hello" .combined 7).2.lowestSeq =
      ((RingBuffer.new 5000 4).append "hello" .combined 7).2.nextSeq ∧
    (∀ (oracle : JsRegexOracle) (now₂ : Nat) (opts : QueryOptions)
        (r : QueryResult),
      RingBuffer.query oracle now₂
        ((RingBuffer.new 5000 4).append "hello" .combined 7).2 opts = .ok r →
      r.events = []) :=
  append_oversize (RingBuffer.new 5000 4) (Reachable.new 5000 4)
    "hello" .combined 7 (by decide)

theorem validateNameSegment_isOk (s : List Char) (ctx : String) :
    (validateNameSegment s ctx).isOk = !(badSegSpec s) := by
  unfold validateNameSegment badSegSpec
  by_cases h1 : s.isEmpty
  · simp [h1, Except.isOk, Except.toBool]
  · by_cases h2 : s.length > 64
    · simp [h1, h2, Except.isOk, Except.toBool]
    · by_cases h3 : s.all isValidSegChar
      · simp [h1, h2, h3, Except.isOk, Except.toBool]
      · simp [h1, h2, h3, Except.isOk, Except.toBool]

theorem validateSegments_isOk (ss : List (List Char)) :
    (validateSegments ss).isOk = !(ss.any badSegSpec) := by
  induction ss with
  | nil => simp [validateSegments, Except.isOk, Except.toBool]
  | cons s ss ih =>
    unfold validateSegments
    have hs := validateNameSegment_isOk s "Path segment"
    cases hv : validateNameSegment s "Path segment" with
    | error e =>
      rw [hv] at hs
      simp only [Except.isOk, Except.toBool] at hs
      have hb : badSegSpec s = true := by
        cases hbs : badSegSpec s
        · rw [hbs] at hs; cases hs
        · rfl
      simp [Except.isOk, Except.toBool, List.any_cons, hb]
    | ok u =>
      cases u
      rw [hv] at hs
      simp only [Except.isOk, Except.toBool] at hs
      have hb : badSegSpec s = false := by
        cases hbs : badSegSpec s
        · rfl
        · rw [hbs] at hs; cases hs
      simp [List.any_cons, hb, ih]

theorem validateServiceName_spec (name : String) :
    (validateServiceName name).isOk = !(specRejectsName name) := by
  unfold validateServiceName specRejectsName claimSegments
  by_cases h1 : name.isEmpty
  · simp [h1, Except.isOk, Except.toBool]
  · by_cases h2 : name.length > 128
    · simp [h1, h2, Except.isOk, Except.toBool]
    · cases hsl : splitLastColon name.toList with
      | none =>
        simp [h1, h2, hsl, validateNameSegment_isOk]
      | some pb =>
        obtain ⟨p, bse⟩ := pb
        cases hv : validateSegments (splitOnChar '/' p) with
        | error e =>
          have h := validateSegments_isOk (splitOnChar '/' p)
          rw [hv] at h
          simp only [Except.isOk, Except.toBool] at h
          simp [h1, h2, hsl, hv, List.any_append, ← h, Except.isOk, Except.toBool]
        | ok u =>
          cases u
          have h := validateSegments_isOk (splitOnChar '/' p)
          rw [hv] at h
          simp only [Except.isOk, Except.toBool] at h
          simp [h1, h2, hsl, hv, List.any_append, ← h,
            validateNameSegment_isOk]

/-- **C7.** `validateServiceName(name)` throws exactly when the name is
empty, longer than 128 characters, or some segment (the whole simple name,
a `/`-separated prefix segment, or the base name after the last colon) is
empty, longer than 64 characters, or contains a character outside
`[A-Za-z0-9_-]`; in particular `"../etc/passwd"` and a 65-character segment
are rejected and `"frontend:api"` is accepted; and `getSocketPath` runs the
validation before joining any filesystem path (its result is exactly the
validation outcome mapped over the join). -/
theorem validateServiceName_characterization :
    (∀ name : String,
      (validateServiceName name).isOk = !(specRejectsName name)) ∧
    (validateServiceName "../etc/passwd").isOk = false ∧
    (validateServiceName (String.mk (List.replicate 65 'a'))).isOk = false ∧
    (validateServiceName "frontend:api").isOk = true ∧
    (∀ tapDir name, getSocketPath tapDir name =
      (validateServiceName name).map
        (fun _ => joinPath tapDir (name ++ ".sock"))) := by
  refine ⟨validateServiceName_spec, by decide, by decide, by decide, ?_⟩
  intro tapDir name
  unfold getSocketPath
  cases validateServiceName name <;> rfl

theorem validateRegexPattern_rejects (compiles : String → Bool) (p : String)
    (h : p.length > 200 ∨ compiles p = false ∨ isDangerousPattern p = true) :
    (validateRegexPattern compiles p).isOk = false := by
  unfold validateRegexPattern
  by_cases h1 : p.isEmpty
  · simp [h1, Except.isOk, Except.toBool]
  · by_cases h2 : p.length > MAX_REGEX_LENGTH
    · simp [h1, h2, Except.isOk, Except.toBool]
    · rcases h with hlen | hcomp | hdang
      · exact absurd hlen (by simpa [MAX_REGEX_LENGTH] using h2)
      · simp [h1, h2, hcomp, Except.isOk, Except.toBool]
      · by_cases h3 : compiles p
        · simp [h1, h2, h3, hdang, Except.isOk, Except.toBool]
        · simp [h1, h2, h3, Except.isOk, Except.toBool]

/-- **C8.** The shared regex validation (used by `query` and the readiness
wait through `createSafeRegex`) throws for every pattern longer than 200
characters, every pattern that fails to compile, and every pattern matching
the heuristic dangerous-backtracking signatures — whatever the host
compiler says; in particular `".*.*"`, `"(a|b)+"` and `"a{1,10}{1,10}"` are
rejected for every host compiler. -/
theorem validateRegexPattern_rejections :
    (∀ (compiles : String → Bool) (p : String),
      (p.length > 200 ∨ compiles p = false ∨ isDangerousPattern p = true) →
      (validateRegexPattern compiles p).isOk = false) ∧
    (∀ compiles : String → Bool,
      (validateRegexPattern compiles ".*.*").isOk = false) ∧
    (∀ compiles : String → Bool,
      (validateRegexPattern compiles "(a|b)+").isOk = false) ∧
    (∀ compiles : String → Bool,
      (validateRegexPattern compiles "a{1,10}{1,10}").isOk = false) :=
  ⟨validateRegexPattern_rejects,
   fun compiles => validateRegexPattern_rejects compiles ".*.*"
     (Or.inr (Or.inr (by decide))),
   fun compiles => validateRegexPattern_rejects compiles "(a|b)+"
     (Or.inr (Or.inr (by decide))),
   fun compiles => validateRegexPattern_rejects compiles "a{1,10}{1,10}"
     (Or.inr (Or.inr (by decide)))⟩

/-- Witness for C8: the dangerous pattern `".*.*"` under the concrete
always-compiling host. -/
theorem validateRegexPattern_rejections_witness :
    (((".*.*" : String).length > 200 ∨ oracleTrue.compiles ".*.*" = false ∨
      isDangerousPattern ".*.*" = true)) ∧
    (validateRegexPattern oracleTrue.compiles ".*.*").isOk = false :=
  ⟨Or.inr (Or.inr (by decide)),
   validateRegexPattern_rejections.1 oracleTrue.compiles ".*.*"
     (Or.inr (Or.inr (by decide)))⟩

theorem string_ext {a b : String} (h : a.data = b.data) : a = b := by
  cases a
  cases b
  exact congrArg String.mk h

theorem mk_isEmpty (l : List Char) :
    (String.mk l).isEmpty = l.isEmpty := by
  cases l with
  | nil => rfl
  | cons c r =>
    simp only [List.isEmpty_cons]
    rw [Bool.eq_false_iff]
    intro h
    have h1 := (String.isEmpty_iff _).mp h
    have h2 := congrArg String.data h1
    simp at h2

theorem isEmpty_false_of_ne {s : String} (h : s ≠ "") :
    s.isEmpty = false := by
  rw [Bool.eq_false_iff]
  intro hh
  exact h ((String.isEmpty_iff s).mp hh)

theorem splitLastColon_eq_none {l : List Char} (h : ∀ c ∈ l, c ≠ ':') :
    splitLastColon l = none := by
  induction l with
  | nil => rfl
  | cons c rest ih =>
    unfold splitLastColon
    rw [ih (fun x hx => h x (List.mem_cons_of_mem _ hx))]
    simp [h c (List.mem_cons_self c rest)]

theorem splitLastColon_none_no_colon :
    ∀ {l : List Char}, splitLastColon l = none → ∀ c ∈ l, c ≠ ':' := by
  intro l
  induction l with
  | nil => intro _ c hc; cases hc
  | cons d rest ih =>
    intro h c hc
    unfold splitLastColon at h
    cases hr : splitLastColon rest with
    | some pb => rw [hr] at h; cases h
    | none =>
      rw [hr] at h
      by_cases hd : d = ':'
      · rw [if_pos hd] at h; cases h
      · rcases List.mem_cons.mp hc with rfl | hc
        · exact hd
        · exact ih hr c hc

theorem splitLastColon_append (p b : List Char) (hb : ∀ c ∈ b, c ≠ ':') :
    splitLastColon (p ++ ':' :: b) = some (p, b) := by
  induction p with
  | nil =>
    rw [List.nil_append]
    unfold splitLastColon
    rw [splitLastColon_eq_none hb]
    simp
  | cons c p ih =>
    rw [List.cons_append]
    unfold splitLastColon
    rw [ih]

theorem splitLastColon_shape :
    ∀ {l p b : List Char}, splitLastColon l = some (p, b) →
      l = p ++ ':' :: b ∧ ∀ c ∈ b, c ≠ ':' := by
  intro l
  induction l with
  | nil => intro p b h; cases h
  | cons d rest ih =>
    intro p b h
    unfold splitLastColon at h
    cases hr : splitLastColon rest with
    | some pb =>
      rw [hr] at h
      injection h with h
      obtain ⟨hshape, hnb⟩ := ih (by rw [hr])
      have h1 : p = d :: pb.1 := (congrArg Prod.fst h).symm
      have h2 : b = pb.2 := (congrArg Prod.snd h).symm
      subst h1
      subst h2
      refine ⟨?_, hnb⟩
      rw [List.cons_append, ← hshape]
    | none =>
      rw [hr] at h
      by_cases hd : d = ':'
      · rw [if_pos hd] at h
        injection h with h
        have h1 : p = [] := congrArg Prod.fst h |>.symm
        have h2 : b = rest := congrArg Prod.snd h |>.symm
        subst h1
        subst h2
        subst hd
        exact ⟨rfl, splitLastColon_none_no_colon hr⟩
      · rw [if_neg hd] at h
        cases h

theorem validateNameSegment_ok {s : List Char} {ctx : String}
    (h : validateNameSegment s ctx = .ok ()) :
    s.isEmpty = false ∧ s.length ≤ 64 ∧ s.all isValidSegChar = true := by
  unfold validateNameSegment at h
  by_cases h1 : s.isEmpty
  · rw [if_pos h1] at h; cases h
  · rw [if_neg h1] at h
    by_cases h2 : s.length > 64
    · rw [if_pos h2] at h; cases h
    · rw [if_neg h2] at h
      by_cases h3 : s.all isValidSegChar
      · exact ⟨Bool.eq_false_iff.mpr h1, by omega, h3⟩
      · rw [if_pos (by simp [h3])] at h; cases h

theorem validateNameSegment_ok_of {s : List Char} {ctx : String}
    (h1 : s.isEmpty = false) (h2 : s.length ≤ 64)
    (h3 : s.all isValidSegChar = true) :
    validateNameSegment s ctx = .ok () := by
  unfold validateNameSegment
  rw [if_neg (by simp [h1]), if_neg (by omega), if_neg (by simp [h3])]

theorem validateSegments_ok_mem {ss : List (List Char)}
    (h : validateSegments ss = .ok ()) :
    ∀ s ∈ ss, validateNameSegment s "Path segment" = .ok () := by
  induction ss with
  | nil => intro s hs; cases hs
  | cons t ss ih =>
    intro s hs
    unfold validateSegments at h
    cases hv : validateNameSegment t "Path segment" with
    | error e => rw [hv] at h; cases h
    | ok u =>
      cases u
      rw [hv] at h
      rcases List.mem_cons.mp hs with rfl | hs
      · exact hv
      · exact ih h s hs

theorem splitOnChar_ne_nil (sep : Char) :
    ∀ l : List Char, splitOnChar sep l ≠ [] := by
  intro l
  cases l with
  | nil => simp [splitOnChar]
  | cons c rest =>
    unfold splitOnChar
    by_cases hc : c = sep
    · rw [if_pos hc]; simp
    · rw [if_neg hc]
      cases hr : splitOnChar sep rest with
      | nil => simp
      | cons s ss => simp

theorem splitOnChar_mem_char (sep : Char) :
    ∀ (l : List Char) (c : Char), c ∈ l →
      c = sep ∨ ∃ s ∈ splitOnChar sep l, c ∈ s := by
  intro l
  induction l with
  | nil => intro c hc; cases hc
  | cons d rest ih =>
    intro c hc
    unfold splitOnChar
    by_cases hd : d = sep
    · rw [if_pos hd]
      rcases List.mem_cons.mp hc with rfl | hc
      · exact Or.inl hd
      · rcases ih c hc with h | ⟨s, hsmem, hcs⟩
        · exact Or.inl h
        · exact Or.inr ⟨s, List.mem_cons_of_mem _ hsmem, hcs⟩
    · rw [if_neg hd]
      cases hr : splitOnChar sep rest with
      | nil => exact absurd hr (splitOnChar_ne_nil sep rest)
      | cons s0 ss0 =>
        rcases List.mem_cons.mp hc with rfl | hc
        · exact Or.inr ⟨c :: s0, List.mem_cons_self _ _, List.mem_cons_self _ _⟩
        · rcases ih c hc with h | ⟨s, hsmem, hcs⟩
          · exact Or.inl h
          · rw [hr] at hsmem
            rcases List.mem_cons.mp hsmem with rfl | hsmem
            · exact Or.inr ⟨d :: s, List.mem_cons_self _ _,
                List.mem_cons_of_mem _ hcs⟩
            · exact Or.inr ⟨s, List.mem_cons_of_mem _ hsmem, hcs⟩

theorem charValid_ne_colon {c : Char} (h : isValidSegChar c = true) :
    c ≠ ':' := by
  intro heq
  subst heq
  exact absurd h (by decide)

theorem validateServiceName_ok_parts {name : String} {p bs : List Char}
    (hsl : splitLastColon name.toList = some (p, bs))
    (h : validateServiceName name = .ok ()) :
    validateSegments (splitOnChar '/' p) = .ok () ∧
      validateNameSegment bs "Service name" = .ok () := by
  unfold validateServiceName at h
  by_cases h1 : name.isEmpty
  · rw [if_pos h1] at h; cases h
  · rw [if_neg h1] at h
    by_cases h2 : name.length > 128
    · rw [if_pos h2] at h; cases h
    · rw [if_neg h2] at h
      simp only [hsl] at h
      cases hv : validateSegments (splitOnChar '/' p) with
      | error e => rw [hv] at h; cases h
      | ok u =>
        cases u
        rw [hv] at h
        exact ⟨rfl, h⟩

/-- A prefix part validated through its `/`-separated segments contains no
colon. -/
theorem validated_pfx_no_colon {p : List Char}
    (h : validateSegments (splitOnChar '/' p) = .ok ()) :
    ∀ c ∈ p, c ≠ ':' := by
  intro c hc
  rcases splitOnChar_mem_char '/' p c hc with rfl | ⟨s, hsmem, hcs⟩
  · decide
  · have hseg := validateNameSegment_ok (validateSegments_ok_mem h s hsmem)
    exact charValid_ne_colon (List.all_eq_true.mp hseg.2.2 c hcs)

/-- A list of characters that validates as a name segment, seen as a
string, passes the whole service-name validation (it is a simple name). -/
theorem validateServiceName_of_segment {bs : List Char}
    (h : validateNameSegment bs "Service name" = .ok ()) :
    validateServiceName (String.mk bs) = .ok () := by
  obtain ⟨h1, h2, h3⟩ := validateNameSegment_ok h
  unfold validateServiceName
  rw [if_neg (by rw [mk_isEmpty, h1]; simp)]
  rw [if_neg (show ¬(String.mk bs).length > 128 from by
    show ¬bs.length > 128
    omega)]
  have hnc : ∀ c ∈ bs, c ≠ ':' := fun c hc =>
    charValid_ne_colon (List.all_eq_true.mp h3 c hc)
  rw [show (String.mk bs).toList = bs from rfl,
    splitLastColon_eq_none hnc]
  exact validateNameSegment_ok_of h1 h2 h3

theorem sockString_data : (".sock" : String).data = sockSuffix := by decide

theorem isSockEntry_append (base : String) :
    isSockEntry (base ++ ".sock") = true := by
  unfold isSockEntry
  refine List.isSuffixOf_iff_suffix.mpr ⟨base.data, ?_⟩
  show (base ++ ".sock").data = base.data ++ sockSuffix
  rw [String.data_append, sockString_data]

theorem sockBase_append (base : String) :
    sockBase (base ++ ".sock") = base := by
  unfold sockBase
  apply string_ext
  show ((base ++ ".sock").data).take ((base ++ ".sock").data.length - 5) =
    base.data
  rw [String.data_append, sockString_data, List.length_append,
    show sockSuffix.length = 5 from rfl, Nat.add_sub_cancel]
  exact List.take_left _ _

theorem sock_entry_decomp {e : String} (h : isSockEntry e = true) :
    e = sockBase e ++ ".sock" := by
  unfold isSockEntry at h
  obtain ⟨t, ht⟩ := List.isSuffixOf_iff_suffix.mp h
  apply string_ext
  show e.data = (sockBase e ++ ".sock").data
  rw [String.data_append, sockString_data]
  show e.data = e.data.take (e.data.length - 5) ++ sockSuffix
  have hed : e.data = t ++ sockSuffix := ht.symm
  have hlen : e.data.length - 5 = t.length := by
    rw [hed, List.length_append, show sockSuffix.length = 5 from rfl]
    omega
  rw [hlen, hed, List.take_left]

theorem sockBase_subset {e : String} (c : Char)
    (hc : c ∈ (sockBase e).data) : c ∈ e.data := by
  unfold sockBase at hc
  exact List.take_subset _ _ hc

theorem composed_name_inj {p1 b1 p2 b2 : List Char}
    (hb1 : ∀ c ∈ b1, c ≠ ':') (hb2 : ∀ c ∈ b2, c ≠ ':')
    (h : p1 ++ ':' :: b1 = p2 ++ ':' :: b2) : p1 = p2 ∧ b1 = b2 := by
  have h1 := splitLastColon_append p1 b1 hb1
  rw [h, splitLastColon_append p2 b2 hb2] at h1
  injection h1 with h1
  exact ⟨(congrArg Prod.fst h1).symm, (congrArg Prod.snd h1).symm⟩

theorem discoverServices_mem {fs : List (DiscoveredTapDir × List String)}
    {d : DiscoveredTapDir × List String} {e : String}
    (hd : d ∈ fs) (he : e ∈ d.2) (hsock : isSockEntry e = true) :
    ({ name := if d.1.pfx.isEmpty then sockBase e
               else d.1.pfx ++ ":" ++ sockBase e,
       socketPath := joinPath d.1.path e, tapDir := d.1.path,
       pfx := d.1.pfx, baseName := sockBase e } : DiscoveredService) ∈
      discoverServices fs := by
  unfold discoverServices
  refine List.mem_flatten.mpr ⟨_, List.mem_map.mpr ⟨d, hd, rfl⟩, ?_⟩
  exact List.mem_map.mpr ⟨e, List.mem_filter.mpr ⟨he, hsock⟩, rfl⟩

theorem discoverServices_mem_elim
    {fs : List (DiscoveredTapDir × List String)} {m : DiscoveredService}
    (h : m ∈ discoverServices fs) :
    ∃ d ∈ fs, ∃ e ∈ d.2, isSockEntry e = true ∧
      m = { name := if d.1.pfx.isEmpty then sockBase e
                    else d.1.pfx ++ ":" ++ sockBase e,
            socketPath := joinPath d.1.path e, tapDir := d.1.path,
            pfx := d.1.pfx, baseName := sockBase e } := by
  unfold discoverServices at h
  obtain ⟨lm, hlm, hmem⟩ := List.mem_flatten.mp h
  obtain ⟨d, hd, rfl⟩ := List.mem_map.mp hlm
  obtain ⟨e, hef, rfl⟩ := List.mem_map.mp hmem
  obtain ⟨he, hsock⟩ := List.mem_filter.mp hef
  exact ⟨d, hd, e, he, hsock, rfl⟩

/-- **C6.** For every valid service whose name parses as `prefix:base`
(non-empty prefix), the socket file name is derived from the base name
alone, with tap directory `<workspace>/<prefix>/.tap`: (a) the runner binds
`<tap_dir>/<base>.sock`; (b) a client resolving the same name against that
explicit tap directory computes the same path; (c) a client resolving by
discovery over any well-formed walk result that lists the service also
finds exactly that path. -/
theorem socket_path_agreement (workspace name pfx base : String)
    (hparse : parseServiceName name = (pfx, base))
    (hpfx : pfx ≠ "")
    (hok : validateServiceName name = .ok ()) :
    runnerSocketPath name workspace =
      .ok (joinPath (tapDirFor workspace pfx) (base ++ ".sock")) ∧
    (∀ (fs : List (DiscoveredTapDir × List String)) (baseDir : String),
      resolveService name fs baseDir (some (tapDirFor workspace pfx)) =
        (joinPath (tapDirFor workspace pfx) (base ++ ".sock"),
         tapDirFor workspace pfx)) ∧
    (∀ fs : List (DiscoveredTapDir × List String),
      WellFormedFS workspace fs →
      (∃ d ∈ fs, d.1.pfx = pfx ∧ (base ++ ".sock") ∈ d.2) →
      resolveService name fs workspace none =
        (joinPath (tapDirFor workspace pfx) (base ++ ".sock"),
         tapDirFor workspace pfx)) := by
  cases hsl : splitLastColon name.toList with
  | none =>
    exfalso
    unfold parseServiceName at hparse
    rw [hsl] at hparse
    exact hpfx (congrArg Prod.fst hparse).symm
  | some pb =>
    obtain ⟨p, bs⟩ := pb
    have hparse2 : parseServiceName name = (String.mk p, String.mk bs) := by
      unfold parseServiceName
      rw [hsl]
    have hpair := hparse2.symm.trans hparse
    have hp : String.mk p = pfx := congrArg Prod.fst hpair
    have hb : String.mk bs = base := congrArg Prod.snd hpair
    subst hp
    subst hb
    obtain ⟨hsegs, hbase⟩ := validateServiceName_ok_parts hsl hok
    obtain ⟨hshape, hbsnc⟩ := splitLastColon_shape hsl
    have hpnc : ∀ c ∈ p, c ≠ ':' := validated_pfx_no_colon hsegs
    have hbase_ok : validateServiceName (String.mk bs) = .ok () :=
      validateServiceName_of_segment hbase
    have hpE : (String.mk p).isEmpty = false := isEmpty_false_of_ne hpfx
    have hname : name = String.mk p ++ ":" ++ String.mk bs := by
      apply string_ext
      rw [String.data_append, String.data_append]
      show name.toList = p ++ (":" : String).data ++ bs
      rw [hshape, show (":" : String).data = [':'] from rfl,
        List.append_assoc]
      rfl
    have htap : tapDirFor workspace (String.mk p) =
        joinPath (joinPath workspace (String.mk p)) ".tap" := by
      unfold tapDirFor
      rw [if_neg (by simp [hpE])]
    refine ⟨?_, ?_, ?_⟩
    · unfold runnerSocketPath getTapDirForService
      rw [hparse2]
      show getSocketPath
        (if (String.mk p).isEmpty = true then joinPath workspace ".tap"
         else joinPath (joinPath workspace (String.mk p)) ".tap")
        (String.mk bs) = _
      rw [if_neg (by simp [hpE])]
      unfold getSocketPath
      rw [hbase_ok, htap]
    · intro fs baseDir
      unfold resolveService
      rw [hparse2]
    · intro fs hwf hex
      obtain ⟨d, hdfs, hdpfx, hdent⟩ := hex
      have hsock : isSockEntry (String.mk bs ++ ".sock") = true :=
        isSockEntry_append _
      have hmem0 := discoverServices_mem hdfs hdent hsock
      have hs0name : (if d.1.pfx.isEmpty then sockBase (String.mk bs ++ ".sock")
          else d.1.pfx ++ ":" ++ sockBase (String.mk bs ++ ".sock")) = name := by
        rw [hdpfx, hpE, sockBase_append]
        show String.mk p ++ ":" ++ String.mk bs = name
        rw [hname]
      have hfindSome :
          (List.find? (fun s => s.name == name) (discoverServices fs)).isSome :=
        List.find?_isSome.mpr ⟨_, hmem0, beq_iff_eq.mpr hs0name⟩
      obtain ⟨m, hfind⟩ := Option.isSome_iff_exists.mp hfindSome
      have hpred := List.find?_some hfind
      have hmname : m.name = name := eq_of_beq hpred
      have hmmem : m ∈ discoverServices fs := List.mem_of_find?_eq_some hfind
      obtain ⟨d', hd'fs, e, he, hesock, hm⟩ := discoverServices_mem_elim hmmem
      obtain ⟨hpath', hpnc', henc'⟩ := hwf d' hd'fs
      have hebase_nc : ∀ c ∈ (sockBase e).data, c ≠ ':' := fun c hc =>
        henc' e he c (sockBase_subset c hc)
      have hcomp : (if d'.1.pfx.isEmpty then sockBase e
          else d'.1.pfx ++ ":" ++ sockBase e) = name := by
        rw [← hmname, hm]
      by_cases hpe' : d'.1.pfx.isEmpty
      · exfalso
        rw [if_pos hpe'] at hcomp
        have hcolon : ':' ∈ name.toList := by
          rw [hshape]
          exact List.mem_append.mpr (Or.inr (List.mem_cons_self _ _))
        rw [← hcomp] at hcolon
        exact hebase_nc ':' hcolon rfl
      · rw [if_neg hpe'] at hcomp
        have hlist : d'.1.pfx.data ++ ':' :: (sockBase e).data =
            p ++ ':' :: bs := by
          have hmnl := congrArg String.data hcomp
          rw [String.data_append, String.data_append,
            show (":" : String).data = [':'] from rfl] at hmnl
          rw [show name.data = name.toList from rfl, hshape] at hmnl
          rw [← hmnl, List.append_assoc]
          rfl
        obtain ⟨hpeq, hbeq⟩ :=
          composed_name_inj hebase_nc hbsnc hlist
        have hpfx' : d'.1.pfx = String.mk p := string_ext hpeq
        have hbase' : sockBase e = String.mk bs := string_ext hbeq
        have hedec : e = String.mk bs ++ ".sock" := by
          rw [← hbase']
          exact sock_entry_decomp hesock
        unfold resolveService
        simp only [hfind]
        rw [hm]
        show (joinPath d'.1.path e, d'.1.path) = _
        rw [hpath', hpfx', hedec]

/-- Witness for C6 in the two-level workspace of spec scenario 6:
`frontend:api` in workspace `/ws`, with the walk result containing both the
root and the nested tap directory. -/
theorem socket_path_agreement_witness :
    (runnerSocketPath "frontend:api" "/ws" =
      .ok (joinPath (tapDirFor "/ws" "frontend") ("api" ++ ".sock")) ∧
    (∀ (fs : List (DiscoveredTapDir × List String)) (baseDir : String),
      resolveService "frontend:api" fs baseDir
          (some (tapDirFor "/ws" "frontend")) =
        (joinPath (tapDirFor "/ws" "frontend") ("api" ++ ".sock"),
         tapDirFor "/ws" "frontend")) ∧
    (∀ fs : List (DiscoveredTapDir × List String),
      WellFormedFS "/ws" fs →
      (∃ d ∈ fs, d.1.pfx = "frontend" ∧ ("api" ++ ".sock") ∈ d.2) →
      resolveService "frontend:api" fs "/ws" none =
        (joinPath (tapDirFor "/ws" "frontend") ("api" ++ ".sock"),
         tapDirFor "/ws" "frontend"))) :=
  socket_path_agreement "/ws" "frontend:api" "frontend" "api"
    (by rfl) (by decide) (by rfl)

end Tap
